import Mathlib

/-!
Shallow embedding of `src/line-gen.c` (LiveCaptions line generator).

The C core consists of a token capitalizer state machine
(`token_capitalizer_*`), and a line generator (`line_generator_*`) that
re-derives a fixed ring of display lines from the full token stream on
every `update` call.

Modelling conventions:
* `AC_LINE_COUNT` (from the missing header `line-gen.h`) is modelled from
  the spec as a parameter `N` ("a fixed number of N display lines").
* `AC_LINE_MAX` (buffer capacity, also from the missing header) is a
  parameter `M`; the C code's safety margin constant 256 is kept literally.
* Buffers are modelled as `List Char`, with the write cursor `head` equal
  to the buffer length (C counts bytes; on the ASCII data of the claims
  the two agree, and positions are uniformly character counts here).
* External collaborators (pango text metrics, the profanity filter,
  glib unicode case mapping, `SWEAR_REPLACEMENT` from the missing
  `profanity-filter.h`) are parameters in `Env`, per the spec's
  "external collaborators" list.
* GSettings reads are a `Config` value fixed for the whole call.
* `logprob` (a C floating point value) is modelled as a rational; the two
  float-to-int casts in the alpha computation are modelled as truncation
  toward zero, which is the C cast semantics.
* The self-recursion of `line_generator_update` is modelled with explicit
  fuel (`updateFuel`); all loops are structural so that every definition
  evaluates by `decide`/`rfl`.
-/

/-- Token flag bits of `AprilToken.flags` (`APRIL_TOKEN_FLAG_WORD_BOUNDARY_BIT`,
`APRIL_TOKEN_FLAG_SENTENCE_END_BIT`). -/
structure TokenFlags where
  wordBoundary : Bool
  sentenceEnd : Bool
deriving DecidableEq

/-- An `AprilToken`: text, flag bits and a confidence log-probability. -/
structure AprilToken where
  token : String
  flags : TokenFlags
  logprob : ℚ
deriving DecidableEq

/-- The default used to read a token list out of range (the C code can read
past `num_tokens` for a stale non-current slot range; see `slotStep`). -/
def defaultToken : AprilToken := { token := "", flags := ⟨false, false⟩, logprob := 0 }

/-- `tokens[j]` with the out-of-range default. -/
def tokenAt (tokens : List AprilToken) (j : Nat) : AprilToken :=
  tokens.getD j defaultToken

/-- The apostrophe character compared against `subsequent_token[0]`. -/
def apostropheChar : Char := Char.ofNat 39

/-- `struct token_capitalizer`. -/
structure TokenCapitalizer where
  is_english : Bool
  previous_was_period : Bool
  finished_at_period : Bool
  force_next_cap : Bool
deriving DecidableEq

/-- `token_capitalizer_init`. -/
def token_capitalizer_init : TokenCapitalizer :=
  { is_english := true, previous_was_period := true,
    finished_at_period := false, force_next_cap := false }

/-- Does `subsequent_token[0] == '\''` hold (with `subsequent_token` the raw
C string, so an empty string has a NUL first byte and fails the test)? -/
def startsWithApostrophe (s : String) : Bool :=
  match s.data with
  | [] => false
  | c :: _ => c = apostropheChar

/-- `token_capitalizer_next`: returns the capitalize decision for `token`
and the successor state.  `subsequent = none` models a NULL
`subsequent_token`. -/
def token_capitalizer_next (tc : TokenCapitalizer) (token : String) (flags : TokenFlags)
    (subsequent : Option (String × TokenFlags)) : Bool × TokenCapitalizer :=
  if flags.sentenceEnd then
    (false, { tc with previous_was_period := true })
  else if tc.force_next_cap then
    (true, { tc with force_next_cap := false })
  else if tc.previous_was_period && flags.wordBoundary then
    -- if bare space token, capitalize the subsequent token instead
    (true, { tc with force_next_cap := (if token = " " then true else tc.force_next_cap),
                     previous_was_period := false })
  else if tc.is_english && token = " I"
      && (match subsequent with
          | none => true
          | some (st, sf) => sf.wordBoundary || sf.sentenceEnd || startsWithApostrophe st) then
    (true, tc)
  else
    (false, tc)

/-- `token_capitalizer_finish`. -/
def token_capitalizer_finish (tc : TokenCapitalizer) : TokenCapitalizer :=
  { tc with finished_at_period := tc.previous_was_period,
            previous_was_period := false, force_next_cap := false }

/-- `token_capitalizer_rewind`. -/
def token_capitalizer_rewind (tc : TokenCapitalizer) : TokenCapitalizer :=
  { tc with previous_was_period := tc.finished_at_period, force_next_cap := false }

/-- The `should_capitalize` scan at the top of `line_generator_update`
(lines 132-138): a left-to-right fold of `token_capitalizer_next` with
one-token lookahead, returning the flag list and the final state. -/
def capScan : TokenCapitalizer → List AprilToken → List Bool × TokenCapitalizer
  | tc, [] => ([], tc)
  | tc, t :: rest =>
    let sub : Option (String × TokenFlags) :=
      match rest with
      | [] => none
      | u :: _ => some (u.token, u.flags)
    let r := token_capitalizer_next tc t.token t.flags sub
    let rec' := capScan r.2 rest
    (r.1 :: rec'.1, rec'.2)

/-- `FilterMode` (`FILTER_NONE < FILTER_SLURS < FILTER_PROFANITY`). -/
inductive FilterMode where
  | fNone
  | fSlurs
  | fProfanity
deriving DecidableEq

/-- The integer value of a `FilterMode`, for the `filter_mode > FILTER_NONE`
comparison. -/
def FilterMode.rank : FilterMode → Nat
  | .fNone => 0
  | .fSlurs => 1
  | .fProfanity => 2

/-- External collaborators of the core (spec section 2): the pango text
metrics service (`line_generator_get_text_width`), the filter provider
(`get_filter_skip` from the missing `profanity-filter.h`), the glib
unicode case mapping, and `SWEAR_REPLACEMENT`.
Modelled from the spec: these are outside the core and are passed in as
pure synchronous functions. -/
structure Env where
  textWidth : String → Nat
  filterSkip : List AprilToken → Nat → Nat → FilterMode → Nat
  uniToLower : Char → Char
  uniToUpper : Char → Char
  swearReplacement : String

/-- The GSettings values read once at the top of `line_generator_update`
(lines 140-147). -/
structure Config where
  useFade : Bool
  filterMode : FilterMode
  useLowercase : Bool
deriving DecidableEq

/-- `struct line`: the text buffer with its write cursor (`head`, modelled
as `text.length`), the accumulated width `len`, and the frozen checkpoint
`start_head` / `start_len`. -/
structure Line where
  text : List Char
  startHead : Nat
  len : Nat
  startLen : Nat
deriving DecidableEq

/-- `struct line_generator`, over a ring of `N` slots (`AC_LINE_COUNT` is
in the missing header; modelled from the spec as a parameter). -/
structure LineGenerator (N : Nat) where
  lines : Fin N → Line
  activeStart : Fin N → Option Nat
  currentLine : Fin N
  tcap : TokenCapitalizer
  maxTextWidth : Nat

/-- Pointwise array update on a function out of `Fin N` (the C array
assignment `xs[i] = v`), defined without equality transport so that it
reduces during evaluation. -/
def updFin {N : Nat} {A : Type} (f : Fin N → A) (i : Fin N) (v : A) : Fin N → A :=
  fun k => if k = i then v else f k

/-- `REL_LINE_IDX(HEAD, IDX) = (4*AC_LINE_COUNT + HEAD + IDX) % AC_LINE_COUNT`
(C int arithmetic; for the offsets ±1 used by the code the operand is
nonnegative, so C's truncated `%` agrees with the euclidean one). -/
def relLineIdx {N : Nat} (head : Fin N) (idx : Int) : Fin N :=
  ⟨((4 * (N : Int) + (head.val : Int) + idx) % (N : Int)).toNat, by
    have hN : 0 < N := head.pos
    have hN' : (0 : Int) < (N : Int) := by exact_mod_cast hN
    have h1 : 0 ≤ (4 * (N : Int) + (head.val : Int) + idx) % (N : Int) :=
      Int.emod_nonneg _ (by omega)
    have h2 : (4 * (N : Int) + (head.val : Int) + idx) % (N : Int) < (N : Int) :=
      Int.emod_lt_of_pos _ hN'
    omega⟩

/-- Truncation toward zero of a rational, the semantics of C's
float-to-int cast. -/
def ratTrunc (q : ℚ) : Int :=
  if 0 ≤ q then ⌊q⌋ else ⌈q⌉

/-- The two sequential clamps of lines 265-266:
`if(alpha < 10000) alpha = 10000; if(alpha > 65535) alpha = 65535`. -/
def alphaClamp (a : Int) : Int :=
  if (if a < 10000 then 10000 else a) > 65535 then 65535
  else (if a < 10000 then 10000 else a)

/-- The per-token alpha computation of `line_generator_update`
(lines 262-266):
`alpha = (int)((tokens[j].logprob + 2.0) / 8.0 * 65536.0); alpha /= 2.0;
alpha += 32768;` then the two clamps. -/
def alphaOf (logprob : ℚ) : Int :=
  alphaClamp (ratTrunc ((ratTrunc ((logprob + 2) / 8 * 65536) : ℚ) / 2) + 32768)

/-- Decimal digits of `n` (most significant first), with structural fuel;
the model of `sprintf`'s `%d` for nonnegative values. -/
def decDigits : Nat → Nat → List Char
  | 0, _ => []
  | f + 1, n =>
    if n = 0 then []
    else decDigits f (n / 10) ++ [Char.ofNat (48 + n % 10)]

/-- Decimal rendering of an integer (the `%d` conversion). -/
def intDecimal (a : Int) : List Char :=
  if a < 0 then Char.ofNat 45 :: decDigits 20 (-a).toNat
  else if a = 0 then [Char.ofNat 48]
  else decDigits 20 a.toNat

/-- The text appended for one token (lines 268-271): with fade a
`<span fgalpha="...">...</span>` wrapper, without fade the bare token. -/
def renderChunk (useFade : Bool) (logprob : ℚ) (tok : String) : List Char :=
  if useFade then
    "<span fgalpha=\"".data ++ intDecimal (alphaOf logprob) ++ "\">".data
      ++ tok.data ++ "</span>".data
  else
    tok.data

/-- The lowercasing loop body over the remaining characters (lines 190-219):
per character, `g_unichar_tolower`, then if a capitalize is pending and the
uppercased character differs, emit that and clear the pending flag; stop
when the scratch write position would come within 6 bytes of
`MAX_TOKEN_SCRATCH = 72` (positions are characters here). -/
def lowercaseGo (uniToLower uniToUpper : Char → Char) : List Char → Bool → Nat → List Char
  | [], _, _ => []
  | c :: rest, cap, out =>
    let cl := uniToLower c
    let r : Char × Bool :=
      if cap then
        let cu := uniToUpper cl
        if cl ≠ cu then (cu, false) else (cl, cap)
      else (cl, cap)
    if out + 1 + 6 ≥ 72 then [r.1]
    else r.1 :: lowercaseGo uniToLower uniToUpper rest r.2 (out + 1)

/-- The `use_lowercase` transcription of a token into `token_scratch`
(lines 186-222). -/
def lowercaseToken (uniToLower uniToUpper : Char → Char) (cap : Bool) (tok : String) : String :=
  ⟨lowercaseGo uniToLower uniToUpper tok.data cap 0⟩

/-- The filter step (lines 224-231): only when the mode is above
`FILTER_NONE` and the token is a word boundary is the filter provider
queried; a positive skip substitutes `SWEAR_REPLACEMENT` and advances by
`skip`, otherwise the processed token is kept and the scan advances by 1. -/
def filteredToken (env : Env) (cfg : Config) (tokens : List AprilToken)
    (j numTokens : Nat) (procTok : String) : String × Nat :=
  if 0 < cfg.filterMode.rank ∧ (tokenAt tokens j).flags.wordBoundary then
    if 0 < env.filterSkip tokens j numTokens cfg.filterMode then
      (env.swearReplacement, env.filterSkip tokens j numTokens cfg.filterMode)
    else (procTok, 1)
  else (procTok, 1)

/-- `must_break` (line 234): the write cursor is within the 256-unit safety
margin of the capacity `M` (`AC_LINE_MAX`), with C int arithmetic. -/
def mustBreak (M : Nat) (curr : Line) : Bool :=
  (curr.text.length : Int) > (M : Int) - 256

/-- The backward scan for the previous word boundary (line 246):
`while(!(tokens[tgt_brk].flags & WORD_BOUNDARY) && tgt_brk > start) tgt_brk--`. -/
def findWrap (tokens : List AprilToken) (start : Nat) : Nat → Nat
  | 0 => 0
  | t + 1 =>
    if ¬ (tokenAt tokens (t + 1)).flags.wordBoundary ∧ start < t + 1 then
      findWrap tokens start t
    else t + 1

/-- The full wrap-point computation for an overflow at token `j` of a line
starting at `start` with frozen checkpoint `startHead` (lines 244-250):
backward scan, then if it collapsed to the line start and the line has no
frozen prefix (`start_head == 0`), break at the current token `j` instead. -/
def wrapTarget (tokens : List AprilToken) (start startHead j : Nat) : Nat :=
  let b := findWrap tokens start j
  if b = start ∧ startHead = 0 then j else b

/-- Append the rendered chunk for one token to a line (lines 261-273). -/
def appendChunk (cfg : Config) (curr : Line) (tok : String) (logprob : ℚ) : Line :=
  { curr with text := curr.text ++ renderChunk cfg.useFade logprob tok }

/-- One slot's token walk (the `for(j...)` loop, lines 180-276), with
structural fuel (the caller supplies `endIdx - start + 1`, always enough
since `j` advances by at least one per iteration).  `WalkOut.brk l tgt`
is the line-break path (lines 241-258) that makes `update` recurse. -/
inductive WalkOut where
  | done (l : Line)
  | brk (l : Line) (tgt : Nat)
deriving DecidableEq

/-- Outcome of one iteration of the token walk: stop the slot (the
`must_break` safety cutoff), signal a line break, or continue at the next
scan position with the updated line. -/
inductive WalkStepOut where
  | stop
  | wrap (l : Line) (tgt : Nat)
  | go (j2 : Nat) (l : Line)
deriving DecidableEq

/-- The processed (lowercased/capitalized) text of token `j`
(lines 182-222): the raw token when `use_lowercase` is off, the
`token_scratch` transcription when it is on. -/
def procText (env : Env) (cfg : Config) (tokens : List AprilToken) (flags : List Bool)
    (j : Nat) : String :=
  if cfg.useLowercase then
    lowercaseToken env.uniToLower env.uniToUpper (flags.getD j false) (tokenAt tokens j).token
  else (tokenAt tokens j).token

/-- The token text and skip-ahead used to render position `j` (the
`token`/`skipahead` pair after lines 181-231): the processed token text
through the filter step. -/
def ftOf (env : Env) (cfg : Config) (tokens : List AprilToken) (flags : List Bool)
    (j : Nat) : String × Nat :=
  filteredToken env cfg tokens j tokens.length (procText env cfg tokens flags j)

/-- One iteration of the token walk at position `j` (lines 181-275),
in the C order: lowercasing, filter substitution, the `must_break`
cutoff, then for the growing line the width accumulation and the
overflow check, then the append. -/
def walkStep (env : Env) (cfg : Config) (M : Nat) (tokens : List AprilToken)
    (flags : List Bool) (maxW : Nat) (isCurrent : Bool) (startOfLine j : Nat)
    (curr : Line) : WalkStepOut :=
  if mustBreak M curr then .stop
  else if isCurrent then
    if maxW ≤ curr.len + env.textWidth (ftOf env cfg tokens flags j).1 then
      .wrap { curr with len := curr.len + env.textWidth (ftOf env cfg tokens flags j).1 }
        (wrapTarget tokens startOfLine curr.startHead j)
    else
      .go (j + (ftOf env cfg tokens flags j).2)
        (appendChunk cfg
          { curr with len := curr.len + env.textWidth (ftOf env cfg tokens flags j).1 }
          (ftOf env cfg tokens flags j).1 (tokenAt tokens j).logprob)
  else
    .go (j + (ftOf env cfg tokens flags j).2)
      (appendChunk cfg curr (ftOf env cfg tokens flags j).1 (tokenAt tokens j).logprob)

/-- The token walk itself: iterate `walkStep` while `j < endIdx`. -/
def lineWalk (env : Env) (cfg : Config) (M : Nat) (tokens : List AprilToken)
    (flags : List Bool) (maxW : Nat) (isCurrent : Bool) (startOfLine endIdx : Nat) :
    Nat → Nat → Line → WalkOut
  | 0, _, curr => .done curr
  | fuel + 1, j, curr =>
    if j < endIdx then
      match walkStep env cfg M tokens flags maxW isCurrent startOfLine j curr with
      | .stop => .done curr
      | .wrap l tgt => .brk l tgt
      | .go j2 l =>
        lineWalk env cfg M tokens flags maxW isCurrent startOfLine endIdx fuel j2 l
    else .done curr

/-- The per-slot reset to the frozen checkpoint (lines 156-159):
`text[start_head] = '\0'; head = start_head; len = start_len`. -/
def lineResetForWrite (l : Line) : Line :=
  { l with text := l.text.take l.startHead, len := l.startLen }

/-- Outcome of processing one active slot. -/
inductive SlotOut where
  | keep (l : Line)
  | backtrack (l : Line)
  | wrap (l : Line) (tgt : Nat)
deriving DecidableEq

/-- The end of a slot's token range (lines 176-177):
`end = active[REL_LINE_IDX(i,1)]; if (end == -1 || i == current) end = num_tokens`. -/
def slotEnd {N : Nat} (activeStart : Fin N → Option Nat) (currentLine idx : Fin N)
    (numTokens : Nat) : Nat :=
  match activeStart (relLineIdx idx 1) with
  | none => numTokens
  | some e => if idx = currentLine then numTokens else e

/-- The line value carried by a slot outcome. -/
def slotLine : SlotOut → Line
  | .keep l => l
  | .backtrack l => l
  | .wrap l _ => l

/-- Processing of one active slot (lines 152-276) on its reset line `r`:
the `num_tokens == 0` skip, the shrunken-stream backtrack test
(lines 163-173), the range-end computation (lines 176-177) and the token
walk. -/
def slotStep {N : Nat} (env : Env) (cfg : Config) (M : Nat) (tokens : List AprilToken)
    (flags : List Bool) (activeStart : Fin N → Option Nat) (currentLine : Fin N)
    (maxW : Nat) (idx : Fin N) (start : Nat) (r : Line) : SlotOut :=
  if tokens.length = 0 then .keep r
  else if tokens.length ≤ start then
    if idx = currentLine then .backtrack r else .keep r
  else
    match lineWalk env cfg M tokens flags maxW (idx == currentLine) start
        (slotEnd activeStart currentLine idx tokens.length)
        (slotEnd activeStart currentLine idx tokens.length - start + 1) start r with
    | .done l => .keep l
    | .brk l tgt => .wrap l tgt

/-- Store a new value for one line slot. -/
def setLine {N : Nat} (s : LineGenerator N) (idx : Fin N) (l : Line) : LineGenerator N :=
  { s with lines := updFin s.lines idx l }

/-- The state mutation of the shrunken-stream backtrack (lines 166-169):
deactivate the current slot and move `current_line` back one. -/
def backtrackAssemble {N : Nat} (s : LineGenerator N) (idx : Fin N) (l : Line) :
    LineGenerator N :=
  { s with lines := updFin s.lines idx l,
           activeStart := updFin s.activeStart s.currentLine none,
           currentLine := relLineIdx s.currentLine (-1) }

/-- The state mutation of the line break (lines 252-257): advance
`current_line`, activate it at the wrap target and clear its checkpoint. -/
def wrapAssemble {N : Nat} (s : LineGenerator N) (idx : Fin N) (l : Line) (tgt : Nat) :
    LineGenerator N :=
  let lines1 := updFin s.lines idx l
  let nc := relLineIdx s.currentLine 1
  { s with currentLine := nc,
           activeStart := updFin s.activeStart nc (some tgt),
           lines := updFin lines1 nc
             { lines1 nc with startHead := 0, startLen := 0 } }

/-- Result of one full updatePass of the slot loop: either a completed update or
an internal retry (`return line_generator_update(...)`). -/
inductive PassResult (N : Nat) where
  | retry (s : LineGenerator N)
  | done (s : LineGenerator N)

/-- The slot loop (`for(i=0; i<AC_LINE_COUNT; i++)`, lines 150-277), over an
explicit list of slot indices. -/
def passList {N : Nat} (env : Env) (cfg : Config) (M : Nat) (tokens : List AprilToken)
    (flags : List Bool) : LineGenerator N → List (Fin N) → PassResult N
  | s, [] => .done s
  | s, idx :: rest =>
    match s.activeStart idx with
    | none => passList env cfg M tokens flags s rest
    | some start =>
      match slotStep env cfg M tokens flags s.activeStart s.currentLine
          s.maxTextWidth idx start (lineResetForWrite (s.lines idx)) with
      | .keep l => passList env cfg M tokens flags (setLine s idx l) rest
      | .backtrack l => .retry (backtrackAssemble s idx l)
      | .wrap l tgt => .retry (wrapAssemble s idx l tgt)

/-- One full body of `line_generator_update` up to a possible internal
recursion: the capitalization scan (after `token_capitalizer_rewind`),
then the slot loop. -/
def updatePass {N : Nat} (env : Env) (cfg : Config) (M : Nat) (tokens : List AprilToken)
    (s : LineGenerator N) : PassResult N :=
  let sc := capScan (token_capitalizer_rewind s.tcap) tokens
  passList env cfg M tokens sc.1 { s with tcap := sc.2 } (List.finRange N)

/-- `line_generator_update` with explicit fuel for its self-recursion;
`none` means the recursion did not complete within the fuel. -/
def updateFuel {N : Nat} (env : Env) (cfg : Config) (M : Nat) (tokens : List AprilToken) :
    Nat → LineGenerator N → Option (LineGenerator N)
  | 0, _ => none
  | fuel + 1, s =>
    match updatePass env cfg M tokens s with
    | .done s' => some s'
    | .retry s₀ => updateFuel env cfg M tokens fuel s₀

/-- `line_generator_update`, run with the fuel bound the spec itself claims
is sufficient (`N` backtracks plus the wrap restarts, spec sections 4.2/9). -/
def line_generator_update {N : Nat} (env : Env) (cfg : Config) (M : Nat)
    (s : LineGenerator N) (tokens : List AprilToken) : Option (LineGenerator N) :=
  updateFuel env cfg M tokens (N + 2 * tokens.length + 2) s

/-- `line_generator_finalize` (lines 280-292): deactivate every slot,
freeze the current line's write position and width as its checkpoint,
finish the capitalizer, and re-activate the current slot at token 0. -/
def line_generator_finalize {N : Nat} (s : LineGenerator N) : LineGenerator N :=
  { s with
    activeStart := updFin (fun _ => none) s.currentLine (some 0),
    lines := updFin s.lines s.currentLine
      { s.lines s.currentLine with
        startHead := (s.lines s.currentLine).text.length,
        startLen := (s.lines s.currentLine).len },
    tcap := token_capitalizer_finish s.tcap }

/-- `line_generator_init` (lines 100-114) as a transformer of the
(uninitialized) state: it writes every `active_start_of_lines`, every
slot's checkpoint, `current_line` and the capitalizer, and leaves the
text buffers alone (the first update updatePass resets them before reading). -/
def line_generator_init {N : Nat} (s : LineGenerator N) : LineGenerator N :=
  { s with
    lines := fun i => { (s.lines i) with startHead := 0, startLen := 0 },
    activeStart := updFin (fun _ => none) ⟨0, s.currentLine.pos⟩ (some 0),
    currentLine := ⟨0, s.currentLine.pos⟩,
    tcap := token_capitalizer_init }

/-- `line_generator_break` (lines 294-310). -/
def line_generator_break {N : Nat} (s : LineGenerator N) : LineGenerator N :=
  let nc := relLineIdx s.currentLine 1
  { s with
    currentLine := nc,
    activeStart := updFin (fun _ => none) nc (some 0),
    lines := updFin s.lines nc
      { text := [], startHead := 0, len := 0, startLen := 0 } }

/-- `line_generator_set_language` (lines 326-329): English mode iff the
language code starts with "en". -/
def line_generator_set_language {N : Nat} (s : LineGenerator N) (language : String) :
    LineGenerator N :=
  let eng := match language.data with
    | c1 :: c2 :: _ => c1 = Char.ofNat 101 ∧ c2 = Char.ofNat 110
    | _ => false
  { s with tcap := { s.tcap with is_english := eng } }

/-- The reachability invariant that every frozen checkpoint lies within the
written buffer (`start_head <= head`); established by init/break/finalize
and preserved by update. -/
def StateInv {N : Nat} (s : LineGenerator N) : Prop :=
  ∀ k : Fin N, (s.lines k).startHead ≤ (s.lines k).text.length

instance (priority := 2000) {N : Nat} {α : Type} [DecidableEq α] : DecidableEq (Fin N → α) :=
  fun f g =>
    decidable_of_iff (((List.finRange N).all fun k => decide (f k = g k)) = true)
      ⟨fun h => funext fun k =>
        of_decide_eq_true (List.all_eq_true.mp h k (List.mem_finRange k)),
       fun h => List.all_eq_true.mpr fun k _ => decide_eq_true (by rw [h])⟩

instance {N : Nat} : DecidableEq (LineGenerator N) := fun a b =>
  decidable_of_iff
    (a.lines = b.lines ∧ a.activeStart = b.activeStart ∧ a.currentLine = b.currentLine
      ∧ a.tcap = b.tcap ∧ a.maxTextWidth = b.maxTextWidth)
    (by cases a; cases b; simp [LineGenerator.mk.injEq])

instance {N : Nat} : DecidableEq (PassResult N) := fun a b =>
  match a, b with
  | .retry x, .retry y => decidable_of_iff (x = y) (by simp)
  | .retry _, .done _ => isFalse (by intro h; cases h)
  | .done _, .retry _ => isFalse (by intro h; cases h)
  | .done x, .done y => decidable_of_iff (x = y) (by simp)

/-- ASCII-only case mapping, the concrete instantiation of the glib
unicode case mapping used in the witnesses (all claim data is ASCII,
where `g_unichar_tolower`/`toupper` act exactly like this). -/
def asciiLower (c : Char) : Char :=
  if 65 ≤ c.toNat ∧ c.toNat ≤ 90 then Char.ofNat (c.toNat + 32) else c

/-- ASCII-only upper case mapping; see `asciiLower`. -/
def asciiUpper (c : Char) : Char :=
  if 97 ≤ c.toNat ∧ c.toNat ≤ 122 then Char.ofNat (c.toNat - 32) else c

/-- Concrete environment for witnesses: width = character count, filter
matches nothing. -/
def envLen : Env :=
  { textWidth := fun s => s.length, filterSkip := fun _ _ _ _ => 0,
    uniToLower := asciiLower, uniToUpper := asciiUpper, swearReplacement := "[__]" }

/-- Concrete environment in which every string measures 10 wide. -/
def envWide : Env := { envLen with textWidth := fun _ => 10 }

/-- Plain configuration: no fade, no filter, lowercase display. -/
def cfgPlain : Config := { useFade := false, filterMode := .fNone, useLowercase := true }

/-- A zeroed line record. -/
def blankLine : Line := { text := [], startHead := 0, len := 0, startLen := 0 }

/-- A zeroed generator state, fed to `line_generator_init` in fixtures. -/
def blankLG (N : Nat) (hN : 0 < N) (maxW : Nat) : LineGenerator N :=
  { lines := fun _ => blankLine, activeStart := fun _ => none,
    currentLine := ⟨0, hN⟩, tcap := token_capitalizer_init, maxTextWidth := maxW }

/-- Token constructor shorthand for fixtures. -/
def mkTok (s : String) (wb se : Bool) : AprilToken :=
  { token := s, flags := { wordBoundary := wb, sentenceEnd := se }, logprob := 0 }

/-- The token sequence of the capitalization test property (claim C5). -/
def tokensC5 : List AprilToken :=
  [mkTok " " true false, mkTok "hello" false false, mkTok "." false true,
   mkTok " " true false, mkTok "world" false false]

/-- The token sequence of the pronoun test property exactly as the claim
states it (claim C6): `"I"` is its own token without the leading space. -/
def tokensC6 : List AprilToken :=
  [mkTok " " true false, mkTok "I" false false, mkTok "'" false false,
   mkTok "ll" false false]

/-- The pronoun sequence with the tokenization the code actually handles:
a single `" I"` token (space + capital I). -/
def tokensC6i : List AprilToken :=
  [mkTok " I" true false, mkTok "'" false false, mkTok "ll" false false]

/-- Two plain word-fragment tokens with no word boundary anywhere. -/
def tokensAB : List AprilToken :=
  [mkTok "aaaa" false false, mkTok "bbbb" false false]

/-- Freshly initialized one-line generator (for idempotence witnesses). -/
def lgOne : LineGenerator 1 := line_generator_init (blankLG 1 (by decide) 10)

/-- Freshly initialized two-line generator with max width 5. -/
def lgTwo : LineGenerator 2 := line_generator_init (blankLG 2 (by decide) 5)

/-- Freshly initialized two-line generator with a large max width. -/
def lgTwoWide : LineGenerator 2 := line_generator_init (blankLG 2 (by decide) 100)

/-- First utterance for the finalize/eviction scenario (claim C10). -/
def tokensEvA : List AprilToken := [mkTok "aa" false false]

/-- Second utterance for the finalize/eviction scenario (claim C10): wraps
twice with ring size 2, so the wrap cycles back over frozen slots. -/
def tokensEvB : List AprilToken :=
  [mkTok "bb" false false, mkTok " " true false, mkTok "cc" false false,
   mkTok "dd" false false]

/-- A state whose growing line (slot 1) starts at token 5: the stream then
shrinks to a single token (claim C4's premise). -/
def lgShrunk : LineGenerator 2 :=
  { lines := fun _ => blankLine,
    activeStart := fun k => if k = (0 : Fin 2) then some 0 else some 5,
    currentLine := 1, tcap := token_capitalizer_init, maxTextWidth := 5 }

/-- The single-token stream the shrunken state is updated with; under
`envWide` its width (10) exceeds the max line width (5). -/
def tokensX : List AprilToken := [mkTok "x" false false]

/-- The line carried by a walk outcome. -/
def walkLine : WalkOut → Line
  | .done l => l
  | .brk l _ => l

/-- Number of active slots (slots whose `active_start_of_lines` is not -1). -/
def activeCount {N : Nat} (s : LineGenerator N) : Nat :=
  (Finset.univ.filter fun k : Fin N => (s.activeStart k).isSome).card

/-- One internal retry step of the shrunken-stream scenario (the state the
next recursive `line_generator_update` call starts from). -/
def c4Step (s : LineGenerator 2) : LineGenerator 2 :=
  match updatePass envWide cfgPlain 1000 tokensX s with
  | .retry x => x
  | .done x => x

/-- First retry state of the shrunken-stream scenario (after the
backtrack). -/
def c4R1 : LineGenerator 2 := c4Step lgShrunk

/-- Second retry state of the shrunken-stream scenario (after the first
wrap). -/
def c4R2 : LineGenerator 2 := c4Step c4R1

/-- Third retry state of the shrunken-stream scenario; from here the wrap
retries cycle with period two. -/
def c4A : LineGenerator 2 := c4Step c4R2

/-- Fourth retry state of the shrunken-stream scenario. -/
def c4B : LineGenerator 2 := c4Step c4A

/-- The literal result of `line_generator_update` on the fresh one-line
generator with an empty token stream. -/
def lgOneOut : LineGenerator 1 :=
  { lines := fun _ => blankLine, activeStart := fun _ => some 0,
    currentLine := ⟨0, Nat.one_pos⟩,
    tcap := { is_english := true, previous_was_period := false,
              finished_at_period := false, force_next_cap := false },
    maxTextWidth := 10 }

/-- The literal result of `updatePass` on the fresh two-line generator
with an empty token stream. -/
def lgTwoOut : LineGenerator 2 :=
  { lines := fun _ => blankLine,
    activeStart := fun k => if k = (0 : Fin 2) then some 0 else none,
    currentLine := ⟨0, Nat.two_pos⟩,
    tcap := { is_english := true, previous_was_period := false,
              finished_at_period := false, force_next_cap := false },
    maxTextWidth := 5 }

/-- The state after the first utterance `"aa"` is rendered and finalized
(the eviction scenario of claim C10). -/
def lgEvB : LineGenerator 2 :=
  line_generator_finalize
    ((line_generator_update envLen cfgPlain 1000 lgTwo tokensEvA).getD lgTwo)

/-- Tokens for the filter witness: a two-token word starting at a word
boundary, followed by a boundary and another word. -/
def tokensFil : List AprilToken :=
  [mkTok " da" true false, mkTok "mn" false false, mkTok " " true false,
   mkTok "ok" false false]

/-- Filter environment: the provider reports a match of length 2 at
position 0. -/
def envFil : Env :=
  { envLen with filterSkip := fun _ j _ _ => if j = 0 then 2 else 0 }

/-- Same provider except for a different answer at position 1, which is not
a word boundary (for the query-only-at-boundaries witness). -/
def envFil2 : Env :=
  { envLen with filterSkip := fun _ j _ _ => if j = 0 then 2 else if j = 1 then 7 else 0 }

/-- Filtering configuration (slur mode). -/
def cfgFil : Config := { useFade := false, filterMode := .fSlurs, useLowercase := true }

/-- The wrap target of a walk outcome, if it is a line break. -/
def brkTarget : WalkOut → Option Nat
  | .done _ => none
  | .brk _ t => some t

/-- A line with a nonempty frozen prefix (checkpoint 3), for the wrap
fallback counterexamples. -/
def lineC2 : Line := { text := "xyz".data, startHead := 3, len := 0, startLen := 0 }

/-- Capitalize flags for a two-token walk with no capitalization. -/
def flagsFF : List Bool := [false, false]

/-- Bound on the text length of every line of a pass outcome. -/
def resultHeadsLt {N : Nat} (M : Nat) : PassResult N → Prop
  | .done s => ∀ k, (s.lines k).text.length < M
  | .retry s => ∀ k, (s.lines k).text.length < M

/-- `l` extends `r` by appended text, with the same frozen checkpoint. -/
def lineExtends (r l : Line) : Prop :=
  l.startHead = r.startHead ∧ l.startLen = r.startLen ∧ ∃ suf, l.text = r.text ++ suf

/-- Uppercase-display configuration (the `text-uppercase` setting on, so
`use_lowercase` is false): the lowercasing scratch pass of lines 186-222 —
and with it the 72-unit scratch cap on the token — is skipped, and the raw
token is appended as-is. -/
def cfgUpper : Config := { useFade := false, filterMode := .fNone, useLowercase := false }

/-- A single raw token as long as the whole buffer capacity of 256 (claim
C8): with lowercasing off, nothing bounds its length before the append. -/
def tokensC8 : List AprilToken :=
  [mkTok (String.mk (List.replicate 256 'a')) false false]

/-- Freshly initialized one-line generator whose max text width is large
enough that the 256-unit token does not trigger a wrap. -/
def lgOneBig : LineGenerator 1 := line_generator_init (blankLG 1 (by decide) 1000)

theorem optionEqSome {A : Type} [DecidableEq A] (o : Option A) (a : A)
    (h2 : o.map (fun x => decide (x = a)) = some true) : o = some a := by
  cases o with
  | none => simp at h2
  | some x =>
    simp only [Option.map_some', Option.some.injEq] at h2
    rw [of_decide_eq_true h2]

/-- Claim C5 (counterexample): on the token sequence
`[" ", "hello", ".", " ", "world"]` (boundary flags on the spaces, sentence
end on the period), an `update` from a freshly initialized generator does
not capitalize "hello": the capitalize scan decides
`[false, false, false, true, true]` (the initial
`previous_was_period = true` of `token_capitalizer_init` is discarded by
the unconditional `token_capitalizer_rewind` at the top of `update`), so
the rendered line is `" hello. World"`. -/
theorem C5_cap_cex :
    (capScan (token_capitalizer_rewind lgTwoWide.tcap) tokensC5).1
      = [false, false, false, true, true]
    ∧ (line_generator_update envLen cfgPlain 1000 lgTwoWide tokensC5).map
        (fun s => (s.lines 0).text) = some " hello. World".data := by
  constructor
  · decide
  · decide

/-- Claim C5 (amended): the same call capitalizes both "hello" and "world"
and leaves the punctuation untouched provided the capitalizer's checkpoint
records a sentence end when the updatePass begins — e.g. after
`line_generator_finalize` on the freshly initialized generator (whose
`previous_was_period` is still true): the rendered line is
`" Hello. World"`. -/
theorem C5_cap_amended :
    (line_generator_update envLen cfgPlain 1000 (line_generator_finalize lgTwoWide)
      tokensC5).map (fun s => (s.lines 0).text) = some " Hello. World".data := by
  decide

/-- Claim C6 (counterexample): in English mode, on the exact claimed token
sequence `[" ", "I", "'", "ll"]` with no preceding sentence boundary, the
token `"I"` is NOT capitalized: the pronoun rule at lines 67-79 requires
the single token `" I"` (space + capital I, `token[0]==' ' && token[1]=='I'
&& token[2]==0`), which the bare token `"I"` fails.  Every capitalize
decision is false and the rendered line is `" i'll"`. -/
theorem C6_pronoun_cex :
    (capScan (token_capitalizer_rewind lgTwoWide.tcap) tokensC6).1
      = [false, false, false, false]
    ∧ (line_generator_update envLen cfgPlain 1000 lgTwoWide tokensC6).map
        (fun s => (s.lines 0).text) = some " i'll".data := by
  constructor
  · decide
  · decide

/-- Claim C6 (amended): with the tokenization the code actually handles —
the single token `" I"` (space + capital I), as in `[" I", "'", "ll"]` —
English mode capitalizes the pronoun even with no sentence boundary
preceding it (the scan starts with `previous_was_period = false`), because
the lookahead token starts with an apostrophe: the decisions are
`[true, false, false]` and the rendered line is `" I'll"`. -/
theorem C6_pronoun_amended :
    (capScan (token_capitalizer_rewind lgTwoWide.tcap) tokensC6i).1
      = [true, false, false]
    ∧ lgTwoWide.tcap.finished_at_period = false
    ∧ (line_generator_update envLen cfgPlain 1000 lgTwoWide tokensC6i).map
        (fun s => (s.lines 0).text) = some " I'll".data := by
  refine ⟨by decide, by decide, by decide⟩

theorem findWrap_le (tokens : List AprilToken) (start : Nat) :
    ∀ j, findWrap tokens start j ≤ j := by
  intro j
  induction j with
  | zero => simp [findWrap]
  | succ t ih =>
    rw [findWrap]
    split
    · exact Nat.le_trans ih (Nat.le_succ t)
    · exact Nat.le_refl _

theorem findWrap_ge (tokens : List AprilToken) (start : Nat) :
    ∀ j, start ≤ j → start ≤ findWrap tokens start j := by
  intro j
  induction j with
  | zero => intro h; simpa [findWrap] using h
  | succ t ih =>
    intro h
    rw [findWrap]
    split
    · next hc => exact ih (Nat.lt_succ_iff.mp hc.2)
    · exact h

theorem findWrap_spec (tokens : List AprilToken) (start : Nat) :
    ∀ j, start ≤ j →
      (tokenAt tokens (findWrap tokens start j)).flags.wordBoundary = true
      ∨ findWrap tokens start j = start := by
  intro j
  induction j with
  | zero => intro h; right; rw [findWrap]; omega
  | succ t ih =>
    intro hst
    rw [findWrap]
    split
    · next hc => exact ih (Nat.lt_succ_iff.mp hc.2)
    · next hc =>
      rcases Decidable.em ((tokenAt tokens (t + 1)).flags.wordBoundary = true) with hb | hb
      · exact Or.inl hb
      · right
        have h2 : ¬ (start < t + 1) := fun hlt => hc ⟨by simpa using hb, hlt⟩
        omega

theorem filteredToken_snd_pos (env : Env) (cfg : Config) (tokens : List AprilToken)
    (j n : Nat) (p : String) : 1 ≤ (filteredToken env cfg tokens j n p).2 := by
  unfold filteredToken
  split_ifs with h1 h2
  · exact h2
  · exact Nat.le_refl 1
  · exact Nat.le_refl 1

theorem ftOf_snd_pos (env : Env) (cfg : Config) (tokens : List AprilToken)
    (flags : List Bool) (j : Nat) : 1 ≤ (ftOf env cfg tokens flags j).2 :=
  filteredToken_snd_pos env cfg tokens j tokens.length (procText env cfg tokens flags j)

theorem walkStep_wrap_eq (env : Env) (cfg : Config) (M : Nat) (tokens : List AprilToken)
    (flags : List Bool) (maxW : Nat) (isCurrent : Bool) (start j : Nat) (curr l : Line)
    (tgt : Nat)
    (h : walkStep env cfg M tokens flags maxW isCurrent start j curr = .wrap l tgt) :
    isCurrent = true ∧ mustBreak M curr = false
    ∧ l.text = curr.text ∧ l.startHead = curr.startHead ∧ l.startLen = curr.startLen
    ∧ l.len = curr.len + env.textWidth (ftOf env cfg tokens flags j).1
    ∧ maxW ≤ l.len
    ∧ tgt = wrapTarget tokens start curr.startHead j := by
  unfold walkStep at h
  split_ifs at h with h1 h2 h3 <;> cases h
  exact ⟨h2, by simp [h1], rfl, rfl, rfl, rfl, h3, rfl⟩

theorem walkStep_go_eq (env : Env) (cfg : Config) (M : Nat) (tokens : List AprilToken)
    (flags : List Bool) (maxW : Nat) (isCurrent : Bool) (start j : Nat) (curr : Line)
    (j2 : Nat) (l : Line)
    (h : walkStep env cfg M tokens flags maxW isCurrent start j curr = .go j2 l) :
    j2 = j + (ftOf env cfg tokens flags j).2
    ∧ l.startHead = curr.startHead ∧ l.startLen = curr.startLen
    ∧ l.text = curr.text ++ renderChunk cfg.useFade (tokenAt tokens j).logprob
        (ftOf env cfg tokens flags j).1
    ∧ mustBreak M curr = false := by
  unfold walkStep at h
  split_ifs at h with h1 h2 h3 <;> cases h
  all_goals exact ⟨rfl, rfl, rfl, rfl, by simp [h1]⟩

theorem walkStep_stop_eq (env : Env) (cfg : Config) (M : Nat) (tokens : List AprilToken)
    (flags : List Bool) (maxW : Nat) (isCurrent : Bool) (start j : Nat) (curr : Line)
    (h : walkStep env cfg M tokens flags maxW isCurrent start j curr = .stop) :
    mustBreak M curr = true := by
  unfold walkStep at h
  split_ifs at h with h1 h2 h3 <;> first | exact h1 | cases h

theorem walkStep_not_current (env : Env) (cfg : Config) (M : Nat)
    (tokens : List AprilToken) (flags : List Bool) (maxW : Nat) (start j : Nat)
    (curr l : Line) (tgt : Nat) :
    walkStep env cfg M tokens flags maxW false start j curr ≠ .wrap l tgt := by
  intro h
  exact absurd (walkStep_wrap_eq env cfg M tokens flags maxW false start j curr l tgt h).1
    (by simp)

theorem lineWalk_brk_shape (env : Env) (cfg : Config) (M : Nat)
    (tokens : List AprilToken) (flags : List Bool) (maxW start endI : Nat) :
    ∀ fuel j curr l tgt,
      lineWalk env cfg M tokens flags maxW true start endI fuel j curr = .brk l tgt →
      ∃ j', j ≤ j' ∧ j' < endI ∧ tgt = wrapTarget tokens start curr.startHead j' := by
  intro fuel
  induction fuel with
  | zero => intro j curr l tgt h; simp [lineWalk] at h
  | succ n ih =>
    intro j curr l tgt h
    rw [lineWalk] at h
    by_cases hj : j < endI
    · rw [if_pos hj] at h
      match hs : walkStep env cfg M tokens flags maxW true start j curr with
      | .stop => rw [hs] at h; cases h
      | .wrap l0 tgt0 =>
        rw [hs] at h
        obtain ⟨_, _, _, _, _, _, _, h8⟩ :=
          walkStep_wrap_eq env cfg M tokens flags maxW true start j curr l0 tgt0 hs
        injection h with hl ht
        exact ⟨j, Nat.le_refl _, hj, by rw [← ht]; exact h8⟩
      | .go j2 l0 =>
        rw [hs] at h
        obtain ⟨j', h1, h2, h3⟩ := ih j2 l0 l tgt h
        obtain ⟨hg1, hg2, _, _, _⟩ :=
          walkStep_go_eq env cfg M tokens flags maxW true start j curr j2 l0 hs
        refine ⟨j', ?_, h2, by rw [h3, hg2]⟩
        have := ftOf_snd_pos env cfg tokens flags j
        omega
    · rw [if_neg hj] at h; cases h

/-- Claim C2 (counterexample): with tokens `["aaaa", "bbbb"]` carrying no
word-boundary flag anywhere (so the whole line is one word wider than the
maximum), a growing line whose slot has a frozen prefix (`start_head = 3`)
overflows at token 1 and wraps at token 0 — the slot start — which is
neither a word-boundary token nor the current token, contradicting the
claimed "breaks at the current token" fallback. -/
theorem C2_wrap_cex :
    (tokensAB.all fun t => !t.flags.wordBoundary) = true
    ∧ brkTarget (lineWalk envLen cfgPlain 1000 tokensAB flagsFF 5 true 0 2 3 0 lineC2)
        = some 0
    ∧ wrapTarget tokensAB 0 3 1 = 0
    ∧ (tokenAt tokensAB 0).flags.wordBoundary = false
    ∧ wrapTarget tokensAB 0 3 1 ≠ 1 := by
  decide

/-- Claim C2 (amended): whenever the growing line's walk emits a line
break, the wrap point is `wrapTarget` of some overflow position `j'` in
the line's range, and it is a word-boundary token — unless the backward
scan collapses to the slot start (the first word of the line alone reaches
the maximum width); in that case the break is at the current token when
the slot has no frozen prefix content (`start_head = 0`), and at the slot
start when it does. -/
theorem C2_wrap_amended (env : Env) (cfg : Config) (M : Nat)
    (tokens : List AprilToken) (flags : List Bool) (maxW start endI fuel j0 : Nat)
    (curr : Line) (l : Line) (tgt : Nat) (hstart : start ≤ j0)
    (hw : lineWalk env cfg M tokens flags maxW true start endI fuel j0 curr = .brk l tgt) :
    ∃ j', j0 ≤ j' ∧ tgt = wrapTarget tokens start curr.startHead j'
      ∧ ((tokenAt tokens tgt).flags.wordBoundary = true
        ∨ (findWrap tokens start j' = start
           ∧ (curr.startHead = 0 → tgt = j')
           ∧ (curr.startHead ≠ 0 → tgt = start))) := by
  obtain ⟨j', h1, _, h3⟩ := lineWalk_brk_shape env cfg M tokens flags maxW start endI
    fuel j0 curr l tgt hw
  refine ⟨j', h1, h3, ?_⟩
  have hsj : start ≤ j' := Nat.le_trans hstart h1
  rcases findWrap_spec tokens start j' hsj with hb | hcol
  · by_cases hz : findWrap tokens start j' = start ∧ curr.startHead = 0
    · right
      refine ⟨hz.1, fun _ => ?_, fun hne => absurd hz.2 hne⟩
      rw [h3]; unfold wrapTarget; simp [hz.1, hz.2]
    · left
      rw [h3]; unfold wrapTarget; simp only [if_neg hz]; exact hb
  · right
    refine ⟨hcol, fun h0 => ?_, fun hne => ?_⟩
    · rw [h3]; unfold wrapTarget; simp [hcol, h0]
    · rw [h3]; unfold wrapTarget
      have : ¬(findWrap tokens start j' = start ∧ curr.startHead = 0) := by
        intro hc; exact hne hc.2
      simp only [if_neg this]; exact hcol

/-- Claim C3 (counterexample): the direction of the fallback is the
opposite of the claimed one.  With the boundary-free tokens
`["aaaa", "bbbb"]`, an overflow at token 1 of a line starting at token 0
whose backward scan collapses to the start (`findWrap = 0`): with an EMPTY
frozen checkpoint (`start_head = 0`) the wrap point IS moved to the
current token (1), and with a nonempty checkpoint (`start_head = 3`) it is
NOT moved (stays 0) — the claim asserts the move happens iff the
checkpoint is nonempty. -/
theorem C3_fallback_cex :
    findWrap tokensAB 0 1 = 0
    ∧ wrapTarget tokensAB 0 0 1 = 1
    ∧ wrapTarget tokensAB 0 3 1 = 0 := by
  decide

/-- Claim C3 (amended): when the backward scan collapses to the slot's own
start token, the wrap point is moved to the current token if and only if
the slot has NO frozen prefix content (`start_head == 0`, line 250);
otherwise it stays at the slot start. -/
theorem C3_fallback_amended (tokens : List AprilToken) (start sh j : Nat)
    (hcol : findWrap tokens start j = start) :
    wrapTarget tokens start sh j = (if sh = 0 then j else start)
    ∧ (start < j → (wrapTarget tokens start sh j = j ↔ sh = 0)) := by
  have hb : wrapTarget tokens start sh j = (if sh = 0 then j else start) := by
    unfold wrapTarget
    rw [hcol]
    by_cases hz : sh = 0 <;> simp [hz]
  refine ⟨hb, fun hlt => ?_⟩
  rw [hb]
  by_cases hz : sh = 0
  · simp [hz]
  · simp only [hz, if_false]
    constructor
    · intro he; omega
    · intro he; exact he.elim

theorem C2_wrap_amended_witness :
    lineWalk envLen cfgPlain 1000 tokensAB flagsFF 5 true 0 2 3 0 blankLine
      = .brk { text := "aaaa".data, startHead := 0, len := 8, startLen := 0 } 1
    ∧ ∃ j', 0 ≤ j' ∧ 1 = wrapTarget tokensAB 0 blankLine.startHead j'
        ∧ ((tokenAt tokensAB 1).flags.wordBoundary = true
          ∨ (findWrap tokensAB 0 j' = 0
             ∧ (blankLine.startHead = 0 → 1 = j')
             ∧ (blankLine.startHead ≠ 0 → 1 = 0))) :=
  ⟨by decide, C2_wrap_amended envLen cfgPlain 1000 tokensAB flagsFF 5 0 2 3 0 blankLine
    { text := "aaaa".data, startHead := 0, len := 8, startLen := 0 } 1
    (Nat.le_refl 0) (by decide)⟩

theorem C3_fallback_amended_witness :
    findWrap tokensAB 0 1 = 0
    ∧ (wrapTarget tokensAB 0 5 1 = (if 5 = 0 then 1 else 0)
       ∧ (0 < 1 → (wrapTarget tokensAB 0 5 1 = 1 ↔ 5 = 0))) :=
  ⟨by decide, C3_fallback_amended tokensAB 0 5 1 (by decide)⟩

theorem ratTrunc_mono {q q' : ℚ} (h : q ≤ q') : ratTrunc q ≤ ratTrunc q' := by
  unfold ratTrunc
  by_cases h1 : 0 ≤ q
  · rw [if_pos h1, if_pos (le_trans h1 h)]
    exact Int.floor_mono h
  · rw [if_neg h1]
    by_cases h2 : 0 ≤ q'
    · rw [if_pos h2]
      calc ⌈q⌉ ≤ 0 := Int.ceil_le.mpr (by exact_mod_cast le_of_not_le h1)
        _ ≤ ⌊q'⌋ := Int.le_floor.mpr (by exact_mod_cast h2)
    · rw [if_neg h2]
      exact Int.ceil_mono h

theorem alphaClamp_mono {a b : Int} (h : a ≤ b) : alphaClamp a ≤ alphaClamp b := by
  unfold alphaClamp
  split_ifs <;> omega

theorem alphaClamp_bounds (a : Int) : 10000 ≤ alphaClamp a ∧ alphaClamp a ≤ 65535 := by
  unfold alphaClamp
  split_ifs <;> omega

theorem alphaOf_mono {q q' : ℚ} (h : q ≤ q') : alphaOf q ≤ alphaOf q' := by
  unfold alphaOf
  have m1 : ratTrunc ((q + 2) / 8 * 65536) ≤ ratTrunc ((q' + 2) / 8 * 65536) :=
    ratTrunc_mono (by gcongr)
  have m2 : ratTrunc ((ratTrunc ((q + 2) / 8 * 65536) : ℚ) / 2)
      ≤ ratTrunc ((ratTrunc ((q' + 2) / 8 * 65536) : ℚ) / 2) :=
    ratTrunc_mono (by gcongr <;> exact_mod_cast m1)
  exact alphaClamp_mono (by omega)

theorem alphaOf_bounds (q : ℚ) : 10000 ≤ alphaOf q ∧ alphaOf q ≤ 65535 :=
  alphaClamp_bounds _

/-- Claim C9: within one call the fade alpha is a monotone non-decreasing
function of the token's confidence (`logprob`), clamped to the positive
minimum 10000 (never invisible) and the maximum 65535 (full opacity); with
fade disabled the appended text is the bare token with no per-token
markup.  (`logprob` is a C double; its arithmetic is modelled exactly on
rationals, with the two int casts as truncation toward zero — every step
is monotone under IEEE rounding as well.) -/
theorem C9_fade_monotone (q q' lp : ℚ) (tok : String) (cfg : Config) (curr : Line)
    (h : q ≤ q') :
    alphaOf q ≤ alphaOf q'
    ∧ 0 < alphaOf q ∧ 10000 ≤ alphaOf q ∧ alphaOf q ≤ 65535
    ∧ renderChunk false lp tok = tok.data
    ∧ (cfg.useFade = false →
        (appendChunk cfg curr tok lp).text = curr.text ++ tok.data) := by
  obtain ⟨hb1, hb2⟩ := alphaOf_bounds q
  refine ⟨alphaOf_mono h, by omega, hb1, hb2, rfl, fun hf => ?_⟩
  unfold appendChunk renderChunk
  rw [hf]
  simp

theorem C9_fade_monotone_witness :
    (0 : ℚ) ≤ 1
    ∧ (alphaOf 0 ≤ alphaOf 1
      ∧ 0 < alphaOf 0 ∧ 10000 ≤ alphaOf 0 ∧ alphaOf 0 ≤ 65535
      ∧ renderChunk false 0 "w" = "w".data
      ∧ (cfgPlain.useFade = false →
          (appendChunk cfgPlain blankLine "w" 0).text = blankLine.text ++ "w".data)) :=
  ⟨by norm_num, C9_fade_monotone 0 1 0 "w" cfgPlain blankLine (by norm_num)⟩

theorem procText_env_congr (env env' : Env) (cfg : Config) (tokens : List AprilToken)
    (flags : List Bool) (j : Nat)
    (hl : env'.uniToLower = env.uniToLower) (hu : env'.uniToUpper = env.uniToUpper) :
    procText env' cfg tokens flags j = procText env cfg tokens flags j := by
  unfold procText
  rw [hl, hu]

theorem ftOf_env_congr (env env' : Env) (cfg : Config) (tokens : List AprilToken)
    (flags : List Bool) (j : Nat)
    (hl : env'.uniToLower = env.uniToLower) (hu : env'.uniToUpper = env.uniToUpper)
    (hsw : env'.swearReplacement = env.swearReplacement)
    (hagree : (tokenAt tokens j).flags.wordBoundary = true → 0 < cfg.filterMode.rank →
      env'.filterSkip tokens j tokens.length cfg.filterMode
        = env.filterSkip tokens j tokens.length cfg.filterMode) :
    ftOf env' cfg tokens flags j = ftOf env cfg tokens flags j := by
  unfold ftOf filteredToken
  rw [procText_env_congr env env' cfg tokens flags j hl hu]
  by_cases hg : 0 < cfg.filterMode.rank ∧ (tokenAt tokens j).flags.wordBoundary
  · rw [if_pos hg, if_pos hg, hagree hg.2 hg.1, hsw]
  · rw [if_neg hg, if_neg hg]

theorem walkStep_env_congr (env env' : Env) (cfg : Config) (M : Nat)
    (tokens : List AprilToken) (flags : List Bool)
    (hw : env'.textWidth = env.textWidth)
    (hl : env'.uniToLower = env.uniToLower) (hu : env'.uniToUpper = env.uniToUpper)
    (hsw : env'.swearReplacement = env.swearReplacement)
    (hagree : ∀ j', (tokenAt tokens j').flags.wordBoundary = true →
      0 < cfg.filterMode.rank →
      env'.filterSkip tokens j' tokens.length cfg.filterMode
        = env.filterSkip tokens j' tokens.length cfg.filterMode) :
    ∀ maxW isCur start j curr,
      walkStep env' cfg M tokens flags maxW isCur start j curr
        = walkStep env cfg M tokens flags maxW isCur start j curr := by
  intro maxW isCur start j curr
  unfold walkStep
  rw [ftOf_env_congr env env' cfg tokens flags j hl hu hsw (hagree j), hw]

theorem lineWalk_env_congr (env env' : Env) (cfg : Config) (M : Nat)
    (tokens : List AprilToken) (flags : List Bool)
    (hw : env'.textWidth = env.textWidth)
    (hl : env'.uniToLower = env.uniToLower) (hu : env'.uniToUpper = env.uniToUpper)
    (hsw : env'.swearReplacement = env.swearReplacement)
    (hagree : ∀ j', (tokenAt tokens j').flags.wordBoundary = true →
      0 < cfg.filterMode.rank →
      env'.filterSkip tokens j' tokens.length cfg.filterMode
        = env.filterSkip tokens j' tokens.length cfg.filterMode) :
    ∀ maxW isCur start endI fuel j curr,
      lineWalk env' cfg M tokens flags maxW isCur start endI fuel j curr
        = lineWalk env cfg M tokens flags maxW isCur start endI fuel j curr := by
  intro maxW isCur start endI fuel
  induction fuel with
  | zero => intro j curr; rfl
  | succ n ih =>
    intro j curr
    rw [lineWalk, lineWalk,
      walkStep_env_congr env env' cfg M tokens flags hw hl hu hsw hagree]
    by_cases hj : j < endI
    · rw [if_pos hj, if_pos hj]
      cases walkStep env cfg M tokens flags maxW isCur start j curr with
      | stop => rfl
      | wrap l tgt => rfl
      | go j2 l => exact ih j2 l
    · rw [if_neg hj, if_neg hj]

theorem slotStep_env_congr {N : Nat} (env env' : Env) (cfg : Config) (M : Nat)
    (tokens : List AprilToken) (flags : List Bool)
    (activeStart : Fin N → Option Nat) (currentLine : Fin N) (maxW : Nat)
    (idx : Fin N) (start : Nat) (r : Line)
    (hw : env'.textWidth = env.textWidth)
    (hl : env'.uniToLower = env.uniToLower) (hu : env'.uniToUpper = env.uniToUpper)
    (hsw : env'.swearReplacement = env.swearReplacement)
    (hagree : ∀ j', (tokenAt tokens j').flags.wordBoundary = true →
      0 < cfg.filterMode.rank →
      env'.filterSkip tokens j' tokens.length cfg.filterMode
        = env.filterSkip tokens j' tokens.length cfg.filterMode) :
    slotStep env' cfg M tokens flags activeStart currentLine maxW idx start r
      = slotStep env cfg M tokens flags activeStart currentLine maxW idx start r := by
  unfold slotStep
  simp only [lineWalk_env_congr env env' cfg M tokens flags hw hl hu hsw hagree]

theorem passList_env_congr {N : Nat} (env env' : Env) (cfg : Config) (M : Nat)
    (tokens : List AprilToken) (flags : List Bool)
    (hw : env'.textWidth = env.textWidth)
    (hl : env'.uniToLower = env.uniToLower) (hu : env'.uniToUpper = env.uniToUpper)
    (hsw : env'.swearReplacement = env.swearReplacement)
    (hagree : ∀ j', (tokenAt tokens j').flags.wordBoundary = true →
      0 < cfg.filterMode.rank →
      env'.filterSkip tokens j' tokens.length cfg.filterMode
        = env.filterSkip tokens j' tokens.length cfg.filterMode) :
    ∀ (l : List (Fin N)) (s : LineGenerator N),
      passList env' cfg M tokens flags s l = passList env cfg M tokens flags s l := by
  intro l
  induction l with
  | nil => intro s; rfl
  | cons idx rest ih =>
    intro s
    rw [passList, passList]
    cases hA : s.activeStart idx with
    | none => simp only [hA]; exact ih s
    | some start =>
      simp only [hA]
      rw [slotStep_env_congr env env' cfg M tokens flags s.activeStart s.currentLine
        s.maxTextWidth idx start (lineResetForWrite (s.lines idx)) hw hl hu hsw hagree]
      cases slotStep env cfg M tokens flags s.activeStart s.currentLine
          s.maxTextWidth idx start (lineResetForWrite (s.lines idx)) with
      | keep l1 => exact ih (setLine s idx l1)
      | backtrack l1 => rfl
      | wrap l1 tgt => rfl

theorem pass_env_congr {N : Nat} (env env' : Env) (cfg : Config) (M : Nat)
    (tokens : List AprilToken) (s : LineGenerator N)
    (hw : env'.textWidth = env.textWidth)
    (hl : env'.uniToLower = env.uniToLower) (hu : env'.uniToUpper = env.uniToUpper)
    (hsw : env'.swearReplacement = env.swearReplacement)
    (hagree : ∀ j', (tokenAt tokens j').flags.wordBoundary = true →
      0 < cfg.filterMode.rank →
      env'.filterSkip tokens j' tokens.length cfg.filterMode
        = env.filterSkip tokens j' tokens.length cfg.filterMode) :
    updatePass env' cfg M tokens s = updatePass env cfg M tokens s := by
  unfold updatePass
  exact passList_env_congr env env' cfg M tokens _ hw hl hu hsw hagree _ _

theorem updateFuel_env_congr {N : Nat} (env env' : Env) (cfg : Config) (M : Nat)
    (tokens : List AprilToken)
    (hw : env'.textWidth = env.textWidth)
    (hl : env'.uniToLower = env.uniToLower) (hu : env'.uniToUpper = env.uniToUpper)
    (hsw : env'.swearReplacement = env.swearReplacement)
    (hagree : ∀ j', (tokenAt tokens j').flags.wordBoundary = true →
      0 < cfg.filterMode.rank →
      env'.filterSkip tokens j' tokens.length cfg.filterMode
        = env.filterSkip tokens j' tokens.length cfg.filterMode) :
    ∀ (fuel : Nat) (s : LineGenerator N),
      updateFuel env' cfg M tokens fuel s = updateFuel env cfg M tokens fuel s := by
  intro fuel
  induction fuel with
  | zero => intro s; rfl
  | succ n ih =>
    intro s
    rw [updateFuel, updateFuel, pass_env_congr env env' cfg M tokens s hw hl hu hsw hagree]
    cases updatePass env cfg M tokens s with
    | done s1 => rfl
    | retry s0 => exact ih s0

/-- Claim C7: the filter is consulted only at word-boundary tokens with the
mode above `FILTER_NONE` (conjunct 4: two providers that agree at those
positions produce identical `update` results, however they differ
elsewhere); a nonzero skip-length `s` substitutes the fixed replacement
text and advances the scan by exactly `s` (conjuncts 1 and 5); a zero
skip-length renders the processed token normally and advances by one
(conjuncts 2, 3 and 5). -/
theorem C7_filter_query {N : Nat} (env env' : Env) (cfg : Config) (M : Nat)
    (tokens : List AprilToken) (flags : List Bool) (j maxW : Nat) (isCur : Bool)
    (start j2 : Nat) (curr l : Line) (u : LineGenerator N)
    (hw : env'.textWidth = env.textWidth)
    (hl : env'.uniToLower = env.uniToLower) (hu : env'.uniToUpper = env.uniToUpper)
    (hsw : env'.swearReplacement = env.swearReplacement)
    (hagree : ∀ j', (tokenAt tokens j').flags.wordBoundary = true →
      0 < cfg.filterMode.rank →
      env'.filterSkip tokens j' tokens.length cfg.filterMode
        = env.filterSkip tokens j' tokens.length cfg.filterMode) :
    ((tokenAt tokens j).flags.wordBoundary = true → 0 < cfg.filterMode.rank →
      0 < env.filterSkip tokens j tokens.length cfg.filterMode →
      ftOf env cfg tokens flags j
        = (env.swearReplacement, env.filterSkip tokens j tokens.length cfg.filterMode))
    ∧ ((tokenAt tokens j).flags.wordBoundary = true → 0 < cfg.filterMode.rank →
      env.filterSkip tokens j tokens.length cfg.filterMode = 0 →
      ftOf env cfg tokens flags j = (procText env cfg tokens flags j, 1))
    ∧ ((tokenAt tokens j).flags.wordBoundary = false ∨ cfg.filterMode = .fNone →
      ftOf env cfg tokens flags j = (procText env cfg tokens flags j, 1))
    ∧ line_generator_update env' cfg M u tokens = line_generator_update env cfg M u tokens
    ∧ (walkStep env cfg M tokens flags maxW isCur start j curr = .go j2 l →
        j2 = j + (ftOf env cfg tokens flags j).2) := by
  refine ⟨fun hb hm hs => ?_, fun hb hm hs => ?_, fun hor => ?_, ?_, fun hgo => ?_⟩
  · unfold ftOf filteredToken
    rw [if_pos ⟨hm, hb⟩, if_pos hs]
  · unfold ftOf filteredToken
    rw [if_pos ⟨hm, hb⟩, if_neg (by omega)]
  · unfold ftOf filteredToken
    rw [if_neg ?_]
    rcases hor with hb | hmode
    · intro hg; rw [hb] at hg; exact absurd hg.2 (by simp)
    · intro hg; rw [hmode] at hg; exact absurd hg.1 (by simp [FilterMode.rank])
  · exact updateFuel_env_congr env env' cfg M tokens hw hl hu hsw hagree _ u
  · exact (walkStep_go_eq env cfg M tokens flags maxW isCur start j curr j2 l hgo).1

theorem C7_filter_query_witness :
    ((tokenAt tokensFil 0).flags.wordBoundary = true → 0 < cfgFil.filterMode.rank →
      0 < envFil.filterSkip tokensFil 0 tokensFil.length cfgFil.filterMode →
      ftOf envFil cfgFil tokensFil flagsFF 0
        = (envFil.swearReplacement,
           envFil.filterSkip tokensFil 0 tokensFil.length cfgFil.filterMode))
    ∧ ((tokenAt tokensFil 0).flags.wordBoundary = true → 0 < cfgFil.filterMode.rank →
      envFil.filterSkip tokensFil 0 tokensFil.length cfgFil.filterMode = 0 →
      ftOf envFil cfgFil tokensFil flagsFF 0 = (procText envFil cfgFil tokensFil flagsFF 0, 1))
    ∧ ((tokenAt tokensFil 0).flags.wordBoundary = false ∨ cfgFil.filterMode = .fNone →
      ftOf envFil cfgFil tokensFil flagsFF 0 = (procText envFil cfgFil tokensFil flagsFF 0, 1))
    ∧ line_generator_update envFil2 cfgFil 1000 lgTwoWide tokensFil
        = line_generator_update envFil cfgFil 1000 lgTwoWide tokensFil
    ∧ (walkStep envFil cfgFil 1000 tokensFil flagsFF 100 true 0 0 blankLine
        = .go 2 { text := "[__]".data, startHead := 0, len := 4, startLen := 0 } →
        2 = 0 + (ftOf envFil cfgFil tokensFil flagsFF 0).2) :=
  C7_filter_query envFil envFil2 cfgFil 1000 tokensFil flagsFF 0 100 true 0 2
    blankLine { text := "[__]".data, startHead := 0, len := 4, startLen := 0 }
    lgTwoWide rfl rfl rfl rfl
    (by
      intro j' hb hm
      match j' with
      | 0 => rfl
      | 1 => exact absurd hb (by decide)
      | 2 => rfl
      | 3 => exact absurd hb (by decide)
      | n + 4 => rfl)

theorem decDigits_len : ∀ (f k n : Nat), n < 10 ^ k → (decDigits f n).length ≤ k := by
  intro f
  induction f with
  | zero => intro k n _; simp [decDigits]
  | succ f ih =>
    intro k n hn
    rw [decDigits]
    by_cases hz : n = 0
    · simp [hz]
    · rw [if_neg hz]
      match k with
      | 0 => simp at hn; omega
      | k' + 1 =>
        have hdiv : n / 10 < 10 ^ k' := by
          rw [Nat.div_lt_iff_lt_mul (by norm_num)]
          calc n < 10 ^ (k' + 1) := hn
            _ = 10 ^ k' * 10 := by rw [Nat.pow_succ]
        have := ih k' (n / 10) hdiv
        simp only [List.length_append, List.length_cons, List.length_nil]
        omega

theorem intDecimal_len_le (a : Int) (h0 : 0 ≤ a) (h : a ≤ 65535) :
    (intDecimal a).length ≤ 5 := by
  unfold intDecimal
  rw [if_neg (by omega)]
  by_cases hz : a = 0
  · simp [hz]
  · rw [if_neg hz]
    exact decDigits_len 20 5 a.toNat (by omega)

theorem lowercaseGo_len_le (tl tu : Char → Char) :
    ∀ (l : List Char) (cap : Bool) (out : Nat),
      (lowercaseGo tl tu l cap out).length ≤ l.length := by
  intro l
  induction l with
  | nil => intro cap out; simp [lowercaseGo]
  | cons c rest ih =>
    intro cap out
    rw [lowercaseGo]
    split
    · simp
    · simp only [List.length_cons, Nat.add_le_add_iff_right]
      exact ih _ _

theorem tokenAt_token_len (tokens : List AprilToken) (B : Nat)
    (htok : ∀ t ∈ tokens, t.token.length ≤ B) (j : Nat) :
    (tokenAt tokens j).token.length ≤ B := by
  unfold tokenAt
  rw [List.getD_eq_getElem?_getD]
  cases h : tokens[j]? with
  | none => simp [defaultToken]
  | some t => simpa using htok t (List.getElem?_mem h)

theorem procText_len_le (env : Env) (cfg : Config) (tokens : List AprilToken)
    (flags : List Bool) (j : Nat)
    (htok : ∀ t ∈ tokens, t.token.length ≤ 226) :
    (procText env cfg tokens flags j).length ≤ 226 := by
  unfold procText
  split
  · calc (lowercaseToken env.uniToLower env.uniToUpper (flags.getD j false)
        (tokenAt tokens j).token).length
        ≤ (tokenAt tokens j).token.length := by
          unfold lowercaseToken
          exact lowercaseGo_len_le env.uniToLower env.uniToUpper _ _ _
      _ ≤ 226 := tokenAt_token_len tokens 226 htok j
  · exact tokenAt_token_len tokens 226 htok j

theorem ftOf_fst_len (env : Env) (cfg : Config) (tokens : List AprilToken)
    (flags : List Bool) (j : Nat)
    (htok : ∀ t ∈ tokens, t.token.length ≤ 226)
    (hrep : env.swearReplacement.length ≤ 226) :
    (ftOf env cfg tokens flags j).1.length ≤ 226 := by
  unfold ftOf filteredToken
  split_ifs
  · exact hrep
  · exact procText_len_le env cfg tokens flags j htok
  · exact procText_len_le env cfg tokens flags j htok

theorem renderChunk_len_le (useFade : Bool) (lp : ℚ) (tok : String)
    (htok : tok.length ≤ 226) : (renderChunk useFade lp tok).length ≤ 255 := by
  unfold renderChunk
  split
  · have hb := alphaOf_bounds lp
    have h5 : (intDecimal (alphaOf lp)).length ≤ 5 :=
      intDecimal_len_le (alphaOf lp) (by omega) hb.2
    have l1 : ("<span fgalpha=\"".data).length = 15 := by decide
    have l2 : ("\">".data).length = 2 := by decide
    have l3 : ("</span>".data).length = 7 := by decide
    have l4 : tok.data.length ≤ 226 := htok
    simp only [List.length_append, List.length_cons, List.length_nil]
    omega
  · exact le_trans htok (by omega)

theorem mustBreak_false_le (M : Nat) (curr : Line) (hM : 256 ≤ M)
    (h : mustBreak M curr = false) : curr.text.length + 256 ≤ M := by
  unfold mustBreak at h
  rw [decide_eq_false_iff_not] at h
  omega

theorem lineWalk_heads_lt (env : Env) (cfg : Config) (M : Nat)
    (tokens : List AprilToken) (flags : List Bool) (maxW : Nat) (isCur : Bool)
    (start endI : Nat) (hM : 256 ≤ M)
    (htok : ∀ t ∈ tokens, t.token.length ≤ 226)
    (hrep : env.swearReplacement.length ≤ 226) :
    ∀ fuel j curr, curr.text.length < M →
      (walkLine (lineWalk env cfg M tokens flags maxW isCur start endI fuel j curr)).text.length
        < M := by
  intro fuel
  induction fuel with
  | zero => intro j curr hc; simpa [lineWalk, walkLine] using hc
  | succ n ih =>
    intro j curr hc
    rw [lineWalk]
    by_cases hj : j < endI
    · rw [if_pos hj]
      match hs : walkStep env cfg M tokens flags maxW isCur start j curr with
      | .stop => simpa [walkLine] using hc
      | .wrap l tgt =>
        obtain ⟨_, _, ht, _⟩ :=
          walkStep_wrap_eq env cfg M tokens flags maxW isCur start j curr l tgt hs
        simpa [walkLine, ht] using hc
      | .go j2 l =>
        obtain ⟨_, _, _, ht, hmb⟩ :=
          walkStep_go_eq env cfg M tokens flags maxW isCur start j curr j2 l hs
        refine ih j2 l ?_
        have h1 := mustBreak_false_le M curr hM hmb
        have h2 : (renderChunk cfg.useFade (tokenAt tokens j).logprob
            (ftOf env cfg tokens flags j).1).length ≤ 255 :=
          renderChunk_len_le cfg.useFade (tokenAt tokens j).logprob _
            (ftOf_fst_len env cfg tokens flags j htok hrep)
        rw [ht]
        simp only [List.length_append]
        omega
    · rw [if_neg hj]; simpa [walkLine] using hc

theorem slotStep_line_lt {N : Nat} (env : Env) (cfg : Config) (M : Nat)
    (tokens : List AprilToken) (flags : List Bool)
    (activeStart : Fin N → Option Nat) (currentLine : Fin N) (maxW : Nat)
    (idx : Fin N) (start : Nat) (r : Line) (hM : 256 ≤ M)
    (htok : ∀ t ∈ tokens, t.token.length ≤ 226)
    (hrep : env.swearReplacement.length ≤ 226) (hr : r.text.length < M) :
    (slotLine (slotStep env cfg M tokens flags activeStart currentLine maxW idx
      start r)).text.length < M := by
  unfold slotStep
  split_ifs with h1 h2 h3
  · simpa [slotLine] using hr
  · simpa [slotLine] using hr
  · simpa [slotLine] using hr
  · have hwl := lineWalk_heads_lt env cfg M tokens flags maxW (idx == currentLine) start
      (slotEnd activeStart currentLine idx tokens.length) hM htok hrep
      (slotEnd activeStart currentLine idx tokens.length - start + 1) start r hr
    cases hw : lineWalk env cfg M tokens flags maxW (idx == currentLine) start
        (slotEnd activeStart currentLine idx tokens.length)
        (slotEnd activeStart currentLine idx tokens.length - start + 1) start r with
    | done l0 =>
      rw [hw] at hwl
      simpa [slotLine, walkLine] using hwl
    | brk l0 tgt0 =>
      rw [hw] at hwl
      simpa [slotLine, walkLine] using hwl

theorem resetLine_len_le (l : Line) :
    (lineResetForWrite l).text.length ≤ l.text.length := by
  unfold lineResetForWrite
  simp only [List.length_take]
  omega

theorem updFin_lines_lt {N : Nat} (f : Fin N → Line) (i : Fin N) (v : Line) (M : Nat)
    (hf : ∀ k, (f k).text.length < M) (hv : v.text.length < M) :
    ∀ k, ((updFin f i v) k).text.length < M := by
  intro k
  unfold updFin
  by_cases hk : k = i
  · rw [if_pos hk]; exact hv
  · rw [if_neg hk]; exact hf k

theorem passList_heads_lt {N : Nat} (env : Env) (cfg : Config) (M : Nat)
    (tokens : List AprilToken) (flags : List Bool) (hM : 256 ≤ M)
    (htok : ∀ t ∈ tokens, t.token.length ≤ 226)
    (hrep : env.swearReplacement.length ≤ 226) :
    ∀ (l : List (Fin N)) (s : LineGenerator N),
      (∀ k, (s.lines k).text.length < M) →
      resultHeadsLt M (passList env cfg M tokens flags s l) := by
  intro l
  induction l with
  | nil => intro s hs; exact hs
  | cons idx rest ih =>
    intro s hs
    rw [passList]
    cases hA : s.activeStart idx with
    | none => simp only [hA]; exact ih s hs
    | some start =>
      simp only [hA]
      have hline := slotStep_line_lt env cfg M tokens flags s.activeStart s.currentLine
        s.maxTextWidth idx start (lineResetForWrite (s.lines idx)) hM htok hrep
        (lt_of_le_of_lt (resetLine_len_le _) (hs idx))
      generalize hS : slotStep env cfg M tokens flags s.activeStart s.currentLine
          s.maxTextWidth idx start (lineResetForWrite (s.lines idx)) = so
      rw [hS] at hline
      cases so with
      | keep l1 =>
        exact ih (setLine s idx l1)
          (updFin_lines_lt s.lines idx l1 M hs (by simpa [slotLine] using hline))
      | backtrack l1 =>
        intro k
        exact updFin_lines_lt s.lines idx l1 M hs (by simpa [slotLine] using hline) k
      | wrap l1 tgt =>
        intro k
        have hbase := updFin_lines_lt s.lines idx l1 M hs (by simpa [slotLine] using hline)
        exact updFin_lines_lt (updFin s.lines idx l1) (relLineIdx s.currentLine 1)
          { updFin s.lines idx l1 (relLineIdx s.currentLine 1) with
            startHead := 0, startLen := 0 } M hbase
          (hbase (relLineIdx s.currentLine 1)) k

theorem updateFuel_heads_lt {N : Nat} (env : Env) (cfg : Config) (M : Nat)
    (tokens : List AprilToken) (hM : 256 ≤ M)
    (htok : ∀ t ∈ tokens, t.token.length ≤ 226)
    (hrep : env.swearReplacement.length ≤ 226) :
    ∀ (fuel : Nat) (s s' : LineGenerator N),
      (∀ k, (s.lines k).text.length < M) →
      updateFuel env cfg M tokens fuel s = some s' →
      ∀ k, (s'.lines k).text.length < M := by
  intro fuel
  induction fuel with
  | zero => intro s s' _ h; cases h
  | succ n ih =>
    intro s s' hs h
    rw [updateFuel] at h
    have hp := passList_heads_lt env cfg M tokens
      (capScan (token_capitalizer_rewind s.tcap) tokens).1 hM htok hrep
      (List.finRange N)
      { s with tcap := (capScan (token_capitalizer_rewind s.tcap) tokens).2 } hs
    cases hP : updatePass env cfg M tokens s with
    | done s1 =>
      rw [hP] at h
      injection h with he
      have hres : resultHeadsLt M (PassResult.done s1) := by
        rw [← hP]
        exact hp
      rw [← he]
      exact hres
    | retry s0 =>
      rw [hP] at h
      have : resultHeadsLt M (PassResult.retry s0) := by
        rw [← hP]
        exact hp
      exact ih s0 s' this h

set_option maxRecDepth 40000 in
/-- Claim C8 (counterexample): the unconditional no-overflow claim is
false.  With the `text-uppercase` setting on (`use_lowercase` false), the
lowercasing scratch pass — the only thing that caps a token's length — is
skipped (line 186), and the raw token is appended after a margin check
that only looks at the cursor *before* the append (line 234).  A single
256-unit raw token appended to an empty line with capacity `M = 256`
passes the margin check (cursor 0 is not past `M - 256 = 0`) and lands
the cursor at 256 = `M`: the buffer is overflowed and the
`g_assert(curr->head < AC_LINE_MAX)` of line 273 is violated. -/
theorem C8_no_overflow_cex :
    ∃ s' : LineGenerator 1,
      line_generator_update envLen cfgUpper 256 lgOneBig tokensC8 = some s'
      ∧ 256 ≤ ((s'.lines 0).text.length) := by
  have hmap : (line_generator_update envLen cfgUpper 256 lgOneBig tokensC8).map
      (fun t => decide (256 ≤ ((t.lines 0).text.length))) = some true := by decide
  match hm : line_generator_update envLen cfgUpper 256 lgOneBig tokensC8 with
  | some s1 =>
    refine ⟨s1, rfl, ?_⟩
    rw [hm, Option.map_some', Option.some.injEq] at hmap
    exact of_decide_eq_true hmap
  | none =>
    rw [hm] at hmap
    cases hmap

/-- Claim C8 (amended): the write cursor of every line stays strictly
below the buffer capacity `M` throughout `update` *provided every appended
chunk fits in the 256-unit safety margin*: before appending, the engine
stops the slot when the cursor is within the margin (`must_break`, second
conjunct — a stop, not an error), and when every appended chunk is at most
255 units (markup overhead at most 29 plus a token of at most 226), the
cursor after every append stays below `M` — the
`g_assert(curr->head < AC_LINE_MAX)` of line 273 holds.  The 226-unit
token bound is guaranteed by the lowercasing scratch buffer whenever
lowercase mode is on, but is a genuine extra assumption otherwise
(see the counterexample). -/
theorem C8_no_overflow {N : Nat} (env : Env) (cfg : Config) (M : Nat)
    (s s' : LineGenerator N) (tokens : List AprilToken) (flags : List Bool)
    (maxW : Nat) (isCur : Bool) (start j : Nat) (curr : Line)
    (hM : 256 ≤ M)
    (htok : ∀ t ∈ tokens, t.token.length ≤ 226)
    (hrep : env.swearReplacement.length ≤ 226)
    (hs : ∀ k, (s.lines k).text.length < M)
    (h : line_generator_update env cfg M s tokens = some s') :
    (∀ k, (s'.lines k).text.length < M)
    ∧ (mustBreak M curr = true →
        walkStep env cfg M tokens flags maxW isCur start j curr = .stop) := by
  constructor
  · exact updateFuel_heads_lt env cfg M tokens hM htok hrep _ s s' hs h
  · intro hmb
    unfold walkStep
    rw [if_pos hmb]

theorem C8_no_overflow_witness :
    256 ≤ 1000
    ∧ (∀ t ∈ tokensC5, t.token.length ≤ 226)
    ∧ envLen.swearReplacement.length ≤ 226
    ∧ (∀ k, ((lgTwoWide.lines k).text.length < 1000))
    ∧ ((line_generator_update envLen cfgPlain 1000 lgTwoWide tokensC5).map
        (fun s => decide (∀ k, (s.lines k).text.length < 1000)) = some true) := by
  refine ⟨by omega, by decide, by decide, by decide, ?_⟩
  match hm : line_generator_update envLen cfgPlain 1000 lgTwoWide tokensC5 with
  | some s1 =>
    have := (C8_no_overflow envLen cfgPlain 1000 lgTwoWide s1 tokensC5 [] 0 false 0 0
      blankLine (by omega) (by decide) (by decide) (by decide) hm).1
    rw [Option.map_some', Option.some.injEq]
    exact decide_eq_true this
  | none =>
    have h2 : (line_generator_update envLen cfgPlain 1000 lgTwoWide tokensC5).isSome
        = true := by decide
    rw [hm] at h2
    simp at h2

theorem lineWalk_false_done (env : Env) (cfg : Config) (M : Nat)
    (tokens : List AprilToken) (flags : List Bool) (maxW start endI : Nat) :
    ∀ fuel j curr, ∃ l,
      lineWalk env cfg M tokens flags maxW false start endI fuel j curr = .done l := by
  intro fuel
  induction fuel with
  | zero => intro j curr; exact ⟨curr, rfl⟩
  | succ n ih =>
    intro j curr
    rw [lineWalk]
    by_cases hj : j < endI
    · rw [if_pos hj]
      match hs : walkStep env cfg M tokens flags maxW false start j curr with
      | .stop => exact ⟨curr, rfl⟩
      | .wrap l tgt => exact absurd hs (walkStep_not_current _ _ _ _ _ _ _ _ _ _ _)
      | .go j2 l => exact ih j2 l
    · rw [if_neg hj]; exact ⟨curr, rfl⟩

theorem slotStep_keep_of_ne {N : Nat} (env : Env) (cfg : Config) (M : Nat)
    (tokens : List AprilToken) (flags : List Bool)
    (activeStart : Fin N → Option Nat) (currentLine : Fin N) (maxW : Nat)
    (idx : Fin N) (start : Nat) (r : Line) (hne : idx ≠ currentLine) :
    ∃ l, slotStep env cfg M tokens flags activeStart currentLine maxW idx start r
      = .keep l := by
  unfold slotStep
  by_cases h1 : tokens.length = 0
  · rw [if_pos h1]; exact ⟨r, rfl⟩
  · rw [if_neg h1]
    by_cases h2 : tokens.length ≤ start
    · rw [if_pos h2, if_neg hne]; exact ⟨r, rfl⟩
    · rw [if_neg h2]
      have hbe : (idx == currentLine) = false := by simpa using hne
      rw [hbe]
      obtain ⟨l, hl⟩ := lineWalk_false_done env cfg M tokens flags maxW start
        (slotEnd activeStart currentLine idx tokens.length)
        (slotEnd activeStart currentLine idx tokens.length - start + 1) start r
      rw [hl]
      exact ⟨l, rfl⟩

theorem slotStep_backtrack_self {N : Nat} (env : Env) (cfg : Config) (M : Nat)
    (tokens : List AprilToken) (flags : List Bool)
    (activeStart : Fin N → Option Nat) (currentLine : Fin N) (maxW : Nat)
    (st : Nat) (r : Line) (hge : tokens.length ≤ st) (hne : tokens.length ≠ 0) :
    slotStep env cfg M tokens flags activeStart currentLine maxW currentLine st r
      = .backtrack r := by
  unfold slotStep
  rw [if_neg hne, if_pos hge, if_pos rfl]

theorem passList_backtrack {N : Nat} (env : Env) (cfg : Config) (M : Nat)
    (tokens : List AprilToken) (flags : List Bool) (st : Nat)
    (hne : tokens.length ≠ 0) :
    ∀ (l : List (Fin N)) (s : LineGenerator N),
      s.currentLine ∈ l →
      s.activeStart s.currentLine = some st →
      tokens.length ≤ st →
      ∃ s₁, passList env cfg M tokens flags s l = .retry s₁
        ∧ s₁.activeStart = updFin s.activeStart s.currentLine none
        ∧ s₁.currentLine = relLineIdx s.currentLine (-1)
        ∧ s₁.tcap = s.tcap ∧ s₁.maxTextWidth = s.maxTextWidth := by
  intro l
  induction l with
  | nil => intro s hmem; exact absurd hmem (List.not_mem_nil _)
  | cons idx rest ih =>
    intro s hmem hcur hge
    rw [passList]
    by_cases heq : idx = s.currentLine
    · simp only [heq, hcur]
      rw [slotStep_backtrack_self env cfg M tokens flags s.activeStart s.currentLine
        s.maxTextWidth st (lineResetForWrite (s.lines s.currentLine)) hge hne]
      exact ⟨backtrackAssemble s s.currentLine (lineResetForWrite (s.lines s.currentLine)),
        rfl, rfl, rfl, rfl, rfl⟩
    · have hmem' : s.currentLine ∈ rest := by
        cases List.mem_cons.mp hmem with
        | inl h => exact absurd h.symm heq
        | inr h => exact h
      cases hA : s.activeStart idx with
      | none => simp only [hA]; exact ih s hmem' hcur hge
      | some start =>
        simp only [hA]
        obtain ⟨l1, hl1⟩ := slotStep_keep_of_ne env cfg M tokens flags s.activeStart
          s.currentLine s.maxTextWidth idx start (lineResetForWrite (s.lines idx)) heq
        rw [hl1]
        exact ih (setLine s idx l1) hmem' hcur hge

theorem activeCount_drop {N : Nat} (s s₁ : LineGenerator N) (c : Fin N) (v : Nat)
    (hc : s.activeStart c = some v)
    (h1 : s₁.activeStart = updFin s.activeStart c none) :
    activeCount s₁ + 1 = activeCount s := by
  unfold activeCount
  rw [h1]
  have hfil : (Finset.univ.filter fun k : Fin N => ((updFin s.activeStart c none) k).isSome)
      = (Finset.univ.filter fun k : Fin N => (s.activeStart k).isSome).erase c := by
    ext k
    simp only [Finset.mem_erase, Finset.mem_filter, Finset.mem_univ, true_and, updFin]
    by_cases hk : k = c
    · simp [hk]
    · simp [hk]
  rw [hfil, Finset.card_erase_of_mem (by simp [Finset.mem_filter, hc])]
  have hpos : 0 < (Finset.univ.filter fun k : Fin N => (s.activeStart k).isSome).card :=
    Finset.card_pos.mpr ⟨c, by simp [Finset.mem_filter, hc]⟩
  omega

/-- Claim C4 (counterexample): with the two-slot state whose growing line
starts at token 5 while the stream has shrunk to one token (the claim's
premise), `update` — run with the iteration bound the spec itself
prescribes, `N + tokenCount` retries plus slack — does not complete: after
the single backtrack, a `"x"` token wider (10) than the maximum line width
(5) makes the wrap retry cycle forever between two states, so "the retries
are bounded (at most N)" and "update terminates" both fail.
(`shrink_retry_diverges` proves the divergence for EVERY fuel.) -/
theorem C4_backtrack_cex :
    lgShrunk.activeStart lgShrunk.currentLine = some 5
    ∧ tokensX.length = 1
    ∧ line_generator_update envWide cfgPlain 1000 lgShrunk tokensX = none := by
  refine ⟨by decide, by decide, by decide⟩

theorem shrink_retry_diverges :
    ∀ F, updateFuel envWide cfgPlain 1000 tokensX F lgShrunk = none := by
  have h1 : updatePass envWide cfgPlain 1000 tokensX lgShrunk = .retry c4R1 := by decide
  have h2 : updatePass envWide cfgPlain 1000 tokensX c4R1 = .retry c4R2 := by decide
  have h3 : updatePass envWide cfgPlain 1000 tokensX c4R2 = .retry c4A := by decide
  have hA : updatePass envWide cfgPlain 1000 tokensX c4A = .retry c4B := by decide
  have hB : updatePass envWide cfgPlain 1000 tokensX c4B = .retry c4A := by decide
  have step : ∀ (F : Nat) (x y : LineGenerator 2),
      updatePass envWide cfgPlain 1000 tokensX x = .retry y →
      updateFuel envWide cfgPlain 1000 tokensX (F + 1) x
        = updateFuel envWide cfgPlain 1000 tokensX F y := by
    intro F x y hxy
    rw [updateFuel, hxy]
  have cyc : ∀ F, updateFuel envWide cfgPlain 1000 tokensX F c4A = none
      ∧ updateFuel envWide cfgPlain 1000 tokensX F c4B = none := by
    intro F
    induction F with
    | zero => exact ⟨rfl, rfl⟩
    | succ n ih =>
      exact ⟨by rw [step n _ _ hA]; exact ih.2, by rw [step n _ _ hB]; exact ih.1⟩
  intro F
  match F with
  | 0 => rfl
  | 1 => rw [step 0 _ _ h1]; rfl
  | 2 => rw [step 1 _ _ h1, step 0 _ _ h2]; rfl
  | (n + 3) =>
    rw [step (n + 2) _ _ h1, step (n + 1) _ _ h2, step n _ _ h3]
    exact (cyc n).1

/-- Claim C4 (amended): when the growing line's recorded start token is at
or beyond the stream length (stream nonempty), the pass deactivates that
slot, moves `current_line` back one slot (modular) and retries the whole
update; each such retry strictly decreases the number of active slots,
which is at most `N`, so at most `N` consecutive backtrack retries can
occur (and at most as many as there were active slots).  Termination of
the whole `update` call does not hold in general (see
`shrink_retry_diverges`): a token at least as wide as the maximum line
width makes the subsequent wrap retries loop forever. -/
theorem C4_backtrack_amended {N : Nat} (env : Env) (cfg : Config) (M : Nat)
    (tokens : List AprilToken) (s : LineGenerator N) (st F : Nat)
    (hcur : s.activeStart s.currentLine = some st)
    (hge : tokens.length ≤ st) (hne : tokens.length ≠ 0) :
    ∃ s₁, updatePass env cfg M tokens s = .retry s₁
      ∧ s₁.activeStart = updFin s.activeStart s.currentLine none
      ∧ s₁.currentLine = relLineIdx s.currentLine (-1)
      ∧ activeCount s₁ + 1 = activeCount s
      ∧ activeCount s ≤ N
      ∧ updateFuel env cfg M tokens (F + 1) s = updateFuel env cfg M tokens F s₁ := by
  obtain ⟨s₁, hp, ha, hc, _, _⟩ := passList_backtrack env cfg M tokens
    (capScan (token_capitalizer_rewind s.tcap) tokens).1 st hne (List.finRange N)
    { s with tcap := (capScan (token_capitalizer_rewind s.tcap) tokens).2 }
    (List.mem_finRange _) hcur hge
  refine ⟨s₁, hp, ha, hc, activeCount_drop s s₁ s.currentLine st hcur ha, ?_, ?_⟩
  · calc activeCount s
        ≤ (Finset.univ : Finset (Fin N)).card := Finset.card_filter_le _ _
      _ = N := by simp
  · rw [updateFuel]
    have hpass : updatePass env cfg M tokens s = .retry s₁ := hp
    rw [hpass]

theorem C4_backtrack_amended_witness :
    lgShrunk.activeStart lgShrunk.currentLine = some 5
    ∧ tokensX.length ≤ 5
    ∧ tokensX.length ≠ 0
    ∧ ∃ s₁, updatePass envWide cfgPlain 1000 tokensX lgShrunk = .retry s₁
      ∧ s₁.activeStart = updFin lgShrunk.activeStart lgShrunk.currentLine none
      ∧ s₁.currentLine = relLineIdx lgShrunk.currentLine (-1)
      ∧ activeCount s₁ + 1 = activeCount lgShrunk
      ∧ activeCount lgShrunk ≤ 2
      ∧ updateFuel envWide cfgPlain 1000 tokensX 7 lgShrunk
        = updateFuel envWide cfgPlain 1000 tokensX 6 s₁ :=
  ⟨by decide, by decide, by decide,
   C4_backtrack_amended envWide cfgPlain 1000 tokensX lgShrunk 5 6
     (by decide) (by decide) (by decide)⟩

theorem passList_done_skel {N : Nat} (env : Env) (cfg : Config) (M : Nat)
    (tokens : List AprilToken) (flags : List Bool) :
    ∀ (l : List (Fin N)) (s s' : LineGenerator N),
      passList env cfg M tokens flags s l = .done s' →
      s'.activeStart = s.activeStart ∧ s'.currentLine = s.currentLine
      ∧ s'.tcap = s.tcap ∧ s'.maxTextWidth = s.maxTextWidth
      ∧ (∀ k, k ∉ l → s'.lines k = s.lines k)
      ∧ (∀ k, s.activeStart k = none → s'.lines k = s.lines k) := by
  intro l
  induction l with
  | nil =>
    intro s s' h
    injection h with he
    subst he
    exact ⟨rfl, rfl, rfl, rfl, fun _ _ => rfl, fun _ _ => rfl⟩
  | cons idx rest ih =>
    intro s s' h
    rw [passList] at h
    cases hA : s.activeStart idx with
    | none =>
      simp only [hA] at h
      obtain ⟨e1, e2, e3, e4, e5, e6⟩ := ih s s' h
      exact ⟨e1, e2, e3, e4,
        fun k hk => e5 k (fun hm => hk (List.mem_cons_of_mem idx hm)), e6⟩
    | some start =>
      simp only [hA] at h
      cases hS : slotStep env cfg M tokens flags s.activeStart s.currentLine
          s.maxTextWidth idx start (lineResetForWrite (s.lines idx)) with
      | keep l1 =>
        rw [hS] at h
        obtain ⟨e1, e2, e3, e4, e5, e6⟩ := ih (setLine s idx l1) s' h
        have hAs : (setLine s idx l1).activeStart = s.activeStart := rfl
        refine ⟨by rw [e1, hAs], e2, e3, e4, fun k hk => ?_, fun k hk => ?_⟩
        · have hk1 : k ∉ rest := fun hm => hk (List.mem_cons_of_mem idx hm)
          have hk2 : k ≠ idx := fun he => hk (he ▸ List.mem_cons_self idx rest)
          rw [e5 k hk1]
          show updFin s.lines idx l1 k = s.lines k
          rw [updFin, if_neg hk2]
        · have hk2 : k ≠ idx := fun he => by rw [he, hA] at hk; cases hk
          rw [e6 k hk]
          show updFin s.lines idx l1 k = s.lines k
          rw [updFin, if_neg hk2]
      | backtrack l1 => rw [hS] at h; cases h
      | wrap l1 tgt => rw [hS] at h; cases h

/-- Claim C10 (counterexample): render `"aa"`, `finalize` (slot 0 freezes
`"aa"` with checkpoint 2, slot 1 is deactivated and empty), then `update`
with a longer utterance that wraps twice on the two-slot ring: the result
has `current_line = 0`, slot 1 — not the current line — now holds `" cc"`
(changed from empty), and slot 0's frozen prefix `"aa"` has been evicted
and rewritten to `"dd"`.  A subsequent update after finalize does NOT
leave non-current slots byte-for-byte unchanged, and frozen history IS
rewritten once the wrap cycles back over it. -/
theorem C10_finalize_cex :
    (lgEvB.lines 1).text = [] ∧ lgEvB.activeStart 1 = none
    ∧ (lgEvB.lines 0).text = "aa".data ∧ (lgEvB.lines 0).startHead = 2
    ∧ (line_generator_update envLen cfgPlain 1000 lgEvB tokensEvB).map
        (fun s => ((s.lines 0).text, (s.lines 1).text, s.currentLine))
      = some ("dd".data, " cc".data, 0) := by
  refine ⟨by decide, by decide, by decide, by decide, by decide⟩

/-- Claim C10 (amended): `finalize` deactivates every slot's active-start
marker except the current line's, which it re-activates at token 0 with
the checkpoint frozen at the current write position and width, leaving all
other slots' line records untouched; and any update pass that completes
without an internal retry leaves the buffers of inactive slots unchanged
(it skips them).  Slots can still be rewritten by a later update whose
wrap re-activates them (ring eviction) — see the counterexample. -/
theorem C10_finalize_amended {N : Nat} (env : Env) (cfg : Config) (M : Nat)
    (tokens : List AprilToken) (s u u' : LineGenerator N)
    (hdone : updatePass env cfg M tokens u = .done u') :
    (line_generator_finalize s).activeStart
      = updFin (fun _ => none) s.currentLine (some 0)
    ∧ ((line_generator_finalize s).lines s.currentLine).startHead
      = (s.lines s.currentLine).text.length
    ∧ ((line_generator_finalize s).lines s.currentLine).startLen
      = (s.lines s.currentLine).len
    ∧ (line_generator_finalize s).tcap = token_capitalizer_finish s.tcap
    ∧ (∀ k, k ≠ s.currentLine → (line_generator_finalize s).lines k = s.lines k)
    ∧ (∀ k, u.activeStart k = none → u'.lines k = u.lines k) := by
  refine ⟨rfl, ?_, ?_, rfl, fun k hk => ?_, fun k hk => ?_⟩
  · show (updFin s.lines s.currentLine _ s.currentLine).startHead = _
    rw [updFin, if_pos rfl]
  · show (updFin s.lines s.currentLine _ s.currentLine).startLen = _
    rw [updFin, if_pos rfl]
  · show updFin s.lines s.currentLine _ k = s.lines k
    rw [updFin, if_neg hk]
  · obtain ⟨_, _, _, _, _, e6⟩ := passList_done_skel env cfg M tokens
      (capScan (token_capitalizer_rewind u.tcap) tokens).1 (List.finRange N)
      { u with tcap := (capScan (token_capitalizer_rewind u.tcap) tokens).2 } u' hdone
    exact e6 k hk

theorem C10_finalize_amended_witness :
    updatePass envLen cfgPlain 1000 [] lgTwo = .done lgTwoOut
    ∧ ((line_generator_finalize lgTwo).activeStart
        = updFin (fun _ => none) lgTwo.currentLine (some 0)
      ∧ ((line_generator_finalize lgTwo).lines lgTwo.currentLine).startHead
        = (lgTwo.lines lgTwo.currentLine).text.length
      ∧ ((line_generator_finalize lgTwo).lines lgTwo.currentLine).startLen
        = (lgTwo.lines lgTwo.currentLine).len
      ∧ (line_generator_finalize lgTwo).tcap = token_capitalizer_finish lgTwo.tcap
      ∧ (∀ k, k ≠ lgTwo.currentLine →
          (line_generator_finalize lgTwo).lines k = lgTwo.lines k)
      ∧ (∀ k, lgTwo.activeStart k = none → lgTwoOut.lines k = lgTwo.lines k)) :=
  ⟨by decide, C10_finalize_amended envLen cfgPlain 1000 [] lgTwo lgTwo lgTwoOut (by decide)⟩

theorem tcNext_preserves (tc : TokenCapitalizer) (tok : String) (fl : TokenFlags)
    (sub : Option (String × TokenFlags)) :
    ((token_capitalizer_next tc tok fl sub).2).is_english = tc.is_english
    ∧ ((token_capitalizer_next tc tok fl sub).2).finished_at_period
      = tc.finished_at_period := by
  unfold token_capitalizer_next
  split_ifs <;> exact ⟨rfl, rfl⟩

theorem capScan_preserves (tokens : List AprilToken) :
    ∀ tc : TokenCapitalizer,
      ((capScan tc tokens).2).is_english = tc.is_english
      ∧ ((capScan tc tokens).2).finished_at_period = tc.finished_at_period := by
  induction tokens with
  | nil => intro tc; exact ⟨rfl, rfl⟩
  | cons t rest ih =>
    intro tc
    have key : ∀ sub,
        ((capScan (token_capitalizer_next tc t.token t.flags sub).2 rest).2).is_english
          = tc.is_english
        ∧ ((capScan (token_capitalizer_next tc t.token t.flags sub).2 rest).2).finished_at_period
          = tc.finished_at_period := by
      intro sub
      obtain ⟨e1, e2⟩ := tcNext_preserves tc t.token t.flags sub
      obtain ⟨f1, f2⟩ := ih (token_capitalizer_next tc t.token t.flags sub).2
      exact ⟨by rw [f1, e1], by rw [f2, e2]⟩
    cases rest with
    | nil => exact key none
    | cons u rest2 => exact key (some (u.token, u.flags))

theorem rewind_capScan_rewind (tc : TokenCapitalizer) (tokens : List AprilToken) :
    token_capitalizer_rewind ((capScan (token_capitalizer_rewind tc) tokens).2)
      = token_capitalizer_rewind tc := by
  obtain ⟨e1, e2⟩ := capScan_preserves tokens (token_capitalizer_rewind tc)
  unfold token_capitalizer_rewind
  unfold token_capitalizer_rewind at e1 e2
  rw [TokenCapitalizer.mk.injEq]
  exact ⟨e1, by rw [e2], by rw [e2], rfl⟩

theorem lineExtends_rfl (l : Line) : lineExtends l l :=
  ⟨rfl, rfl, [], by simp⟩

theorem lineExtends_trans {a b c : Line} (h1 : lineExtends a b) (h2 : lineExtends b c) :
    lineExtends a c := by
  obtain ⟨e1, e2, s1, e3⟩ := h1
  obtain ⟨f1, f2, s2, f3⟩ := h2
  exact ⟨by rw [f1, e1], by rw [f2, e2], s1 ++ s2, by rw [f3, e3, List.append_assoc]⟩

theorem lineWalk_extends (env : Env) (cfg : Config) (M : Nat)
    (tokens : List AprilToken) (flags : List Bool) (maxW : Nat) (isCur : Bool)
    (start endI : Nat) :
    ∀ fuel j curr,
      lineExtends curr
        (walkLine (lineWalk env cfg M tokens flags maxW isCur start endI fuel j curr)) := by
  intro fuel
  induction fuel with
  | zero => intro j curr; exact lineExtends_rfl curr
  | succ n ih =>
    intro j curr
    rw [lineWalk]
    by_cases hj : j < endI
    · rw [if_pos hj]
      match hs : walkStep env cfg M tokens flags maxW isCur start j curr with
      | .stop => exact lineExtends_rfl curr
      | .wrap l tgt =>
        obtain ⟨_, _, h3, h4, h5, _⟩ :=
          walkStep_wrap_eq env cfg M tokens flags maxW isCur start j curr l tgt hs
        exact ⟨by simp [walkLine, h4], by simp [walkLine, h5], [],
          by simp [walkLine, h3]⟩
      | .go j2 l =>
        obtain ⟨_, h2, h3, h4, _⟩ :=
          walkStep_go_eq env cfg M tokens flags maxW isCur start j curr j2 l hs
        exact lineExtends_trans ⟨h2, h3, _, h4⟩ (ih j2 l)
    · rw [if_neg hj]; exact lineExtends_rfl curr

theorem slotStep_extends {N : Nat} (env : Env) (cfg : Config) (M : Nat)
    (tokens : List AprilToken) (flags : List Bool)
    (activeStart : Fin N → Option Nat) (currentLine : Fin N) (maxW : Nat)
    (idx : Fin N) (start : Nat) (r : Line) :
    lineExtends r (slotLine (slotStep env cfg M tokens flags activeStart currentLine
      maxW idx start r)) := by
  unfold slotStep
  split_ifs with h1 h2 h3
  · exact lineExtends_rfl r
  · exact lineExtends_rfl r
  · exact lineExtends_rfl r
  · have hwl := lineWalk_extends env cfg M tokens flags maxW (idx == currentLine) start
      (slotEnd activeStart currentLine idx tokens.length)
      (slotEnd activeStart currentLine idx tokens.length - start + 1) start r
    cases hw : lineWalk env cfg M tokens flags maxW (idx == currentLine) start
        (slotEnd activeStart currentLine idx tokens.length)
        (slotEnd activeStart currentLine idx tokens.length - start + 1) start r with
    | done l0 =>
      rw [hw] at hwl
      simpa [slotLine, walkLine] using hwl
    | brk l0 tgt0 =>
      rw [hw] at hwl
      simpa [slotLine, walkLine] using hwl

theorem lineExt (a b : Line) (h1 : a.text = b.text) (h2 : a.startHead = b.startHead)
    (h3 : a.len = b.len) (h4 : a.startLen = b.startLen) : a = b := by
  cases a
  cases b
  simp_all

theorem lgExt {N : Nat} (a b : LineGenerator N) (h1 : a.lines = b.lines)
    (h2 : a.activeStart = b.activeStart) (h3 : a.currentLine = b.currentLine)
    (h4 : a.tcap = b.tcap) (h5 : a.maxTextWidth = b.maxTextWidth) : a = b := by
  cases a
  cases b
  simp_all

theorem setTcap_self {N : Nat} (s : LineGenerator N) (v : TokenCapitalizer)
    (h : s.tcap = v) : { s with tcap := v } = s := by
  cases s
  cases h
  rfl

theorem reset_of_extends (x l : Line) (hInv : x.startHead ≤ x.text.length)
    (hext : lineExtends (lineResetForWrite x) l) :
    lineResetForWrite l = lineResetForWrite x ∧ l.startHead ≤ l.text.length := by
  obtain ⟨e1, e2, suf, e3⟩ := hext
  have hr1 : (lineResetForWrite x).startHead = x.startHead := rfl
  have hr2 : (lineResetForWrite x).startLen = x.startLen := rfl
  have hr3 : (lineResetForWrite x).text = x.text.take x.startHead := rfl
  have hrlen : (lineResetForWrite x).text.length = x.startHead := by
    rw [hr3, List.length_take]
    omega
  constructor
  · refine lineExt _ _ ?_ ?_ ?_ ?_
    · show l.text.take l.startHead = x.text.take x.startHead
      rw [e3, e1, hr1, ← hr3, List.take_left' hrlen]
    · show l.startHead = x.startHead
      rw [e1, hr1]
    · show l.startLen = x.startLen
      rw [e2, hr2]
    · show l.startLen = x.startLen
      rw [e2, hr2]
  · rw [e1, hr1, e3, List.length_append, hrlen]
    omega

theorem passList_done_reset {N : Nat} (env : Env) (cfg : Config) (M : Nat)
    (tokens : List AprilToken) (flags : List Bool) :
    ∀ (l : List (Fin N)) (s s' : LineGenerator N),
      StateInv s → passList env cfg M tokens flags s l = .done s' →
      (∀ k, lineResetForWrite (s'.lines k) = lineResetForWrite (s.lines k))
      ∧ StateInv s' := by
  intro l
  induction l with
  | nil =>
    intro s s' hInv h
    injection h with he
    subst he
    exact ⟨fun _ => rfl, hInv⟩
  | cons idx rest ih =>
    intro s s' hInv h
    rw [passList] at h
    cases hA : s.activeStart idx with
    | none =>
      simp only [hA] at h
      exact ih s s' hInv h
    | some start =>
      simp only [hA] at h
      have hext := slotStep_extends env cfg M tokens flags s.activeStart s.currentLine
        s.maxTextWidth idx start (lineResetForWrite (s.lines idx))
      generalize hS : slotStep env cfg M tokens flags s.activeStart s.currentLine
          s.maxTextWidth idx start (lineResetForWrite (s.lines idx)) = so at h hext
      cases so with
      | keep l1 =>
        have hre := reset_of_extends (s.lines idx) l1 (hInv idx)
          (by simpa [slotLine] using hext)
        have hInv2 : StateInv (setLine s idx l1) := by
          intro k
          show ((updFin s.lines idx l1) k).startHead ≤ ((updFin s.lines idx l1) k).text.length
          rw [updFin]
          by_cases hk : k = idx
          · rw [if_pos hk]; exact hre.2
          · rw [if_neg hk]; exact hInv k
        obtain ⟨f1, f2⟩ := ih (setLine s idx l1) s' hInv2 h
        refine ⟨fun k => ?_, f2⟩
        rw [f1 k]
        show lineResetForWrite ((updFin s.lines idx l1) k) = lineResetForWrite (s.lines k)
        rw [updFin]
        by_cases hk : k = idx
        · rw [if_pos hk, hk]; exact hre.1
        · rw [if_neg hk]
      | backtrack l1 => cases h
      | wrap l1 tgt => cases h

theorem passList_retry_inv {N : Nat} (env : Env) (cfg : Config) (M : Nat)
    (tokens : List AprilToken) (flags : List Bool) :
    ∀ (l : List (Fin N)) (s s₀ : LineGenerator N),
      StateInv s → passList env cfg M tokens flags s l = .retry s₀ →
      StateInv s₀ := by
  intro l
  induction l with
  | nil => intro s s₀ _ h; cases h
  | cons idx rest ih =>
    intro s s₀ hInv h
    rw [passList] at h
    cases hA : s.activeStart idx with
    | none =>
      simp only [hA] at h
      exact ih s s₀ hInv h
    | some start =>
      simp only [hA] at h
      have hext := slotStep_extends env cfg M tokens flags s.activeStart s.currentLine
        s.maxTextWidth idx start (lineResetForWrite (s.lines idx))
      generalize hS : slotStep env cfg M tokens flags s.activeStart s.currentLine
          s.maxTextWidth idx start (lineResetForWrite (s.lines idx)) = so at h hext
      cases so with
      | keep l1 =>
        have hre := reset_of_extends (s.lines idx) l1 (hInv idx)
          (by simpa [slotLine] using hext)
        have hInv2 : StateInv (setLine s idx l1) := by
          intro k
          show ((updFin s.lines idx l1) k).startHead ≤ ((updFin s.lines idx l1) k).text.length
          rw [updFin]
          by_cases hk : k = idx
          · rw [if_pos hk]; exact hre.2
          · rw [if_neg hk]; exact hInv k
        exact ih (setLine s idx l1) s₀ hInv2 h
      | backtrack l1 =>
        injection h with he
        subst he
        intro k
        have hre := reset_of_extends (s.lines idx) l1 (hInv idx)
          (by simpa [slotLine] using hext)
        show ((updFin s.lines idx l1) k).startHead ≤ ((updFin s.lines idx l1) k).text.length
        rw [updFin]
        by_cases hk : k = idx
        · rw [if_pos hk]; exact hre.2
        · rw [if_neg hk]; exact hInv k
      | wrap l1 tgt =>
        injection h with he
        subst he
        intro k
        have hre := reset_of_extends (s.lines idx) l1 (hInv idx)
          (by simpa [slotLine] using hext)
        have hbase : ∀ k', ((updFin s.lines idx l1) k').startHead
            ≤ ((updFin s.lines idx l1) k').text.length := by
          intro k'
          rw [updFin]
          by_cases hk : k' = idx
          · rw [if_pos hk]; exact hre.2
          · rw [if_neg hk]; exact hInv k'
        show ((updFin (updFin s.lines idx l1) (relLineIdx s.currentLine 1) _) k).startHead
          ≤ ((updFin (updFin s.lines idx l1) (relLineIdx s.currentLine 1) _) k).text.length
        rw [updFin]
        by_cases hk : k = relLineIdx s.currentLine 1
        · rw [if_pos hk]
          show (0 : Nat) ≤ _
          exact Nat.zero_le _
        · rw [if_neg hk]; exact hbase k

theorem passList_rerun {N : Nat} (env : Env) (cfg : Config) (M : Nat)
    (tokens : List AprilToken) (flags : List Bool) :
    ∀ (l : List (Fin N)) (s t s' : LineGenerator N),
      l.Nodup →
      passList env cfg M tokens flags s l = .done s' →
      t.activeStart = s.activeStart →
      t.currentLine = s.currentLine →
      t.maxTextWidth = s.maxTextWidth →
      (∀ k, k ∈ l → lineResetForWrite (t.lines k) = lineResetForWrite (s.lines k)) →
      (∀ k, k ∈ l → s.activeStart k = none → t.lines k = s.lines k) →
      (∀ k, k ∉ l → t.lines k = s'.lines k) →
      ∃ t', passList env cfg M tokens flags t l = .done t'
        ∧ (∀ k, t'.lines k = s'.lines k)
        ∧ t'.activeStart = t.activeStart ∧ t'.currentLine = t.currentLine
        ∧ t'.tcap = t.tcap ∧ t'.maxTextWidth = t.maxTextWidth := by
  intro l
  induction l with
  | nil =>
    intro s t s' _ h _ _ _ _ _ hout
    injection h with he
    subst he
    exact ⟨t, rfl, fun k => hout k (List.not_mem_nil k), rfl, rfl, rfl, rfl⟩
  | cons idx rest ih =>
    intro s t s' hnd h ha hc hm hreset hinact hout
    have hndr : rest.Nodup := (List.nodup_cons.mp hnd).2
    have hidxr : idx ∉ rest := (List.nodup_cons.mp hnd).1
    rw [passList] at h
    rw [passList]
    cases hA : s.activeStart idx with
    | none =>
      simp only [hA] at h
      have hAt : t.activeStart idx = none := by rw [ha]; exact hA
      simp only [hAt]
      have hskel := passList_done_skel env cfg M tokens flags rest s s' h
      refine ih s t s' hndr h ha hc hm
        (fun k hk => hreset k (List.mem_cons_of_mem idx hk))
        (fun k hk hn => hinact k (List.mem_cons_of_mem idx hk) hn)
        (fun k hk => ?_)
      by_cases hki : k = idx
      · rw [hki, hskel.2.2.2.2.2 idx hA]
        exact hinact idx (List.mem_cons_self idx rest) hA
      · exact hout k (fun hm2 => by
          cases List.mem_cons.mp hm2 with
          | inl h2 => exact hki h2
          | inr h2 => exact hk h2)
    | some start =>
      simp only [hA] at h
      generalize hS : slotStep env cfg M tokens flags s.activeStart s.currentLine
          s.maxTextWidth idx start (lineResetForWrite (s.lines idx)) = so at h
      cases so with
      | keep l1 =>
        have hAt : t.activeStart idx = some start := by rw [ha]; exact hA
        have hslot : slotStep env cfg M tokens flags t.activeStart t.currentLine
            t.maxTextWidth idx start (lineResetForWrite (t.lines idx)) = SlotOut.keep l1 := by
          rw [ha, hc, hm, hreset idx (List.mem_cons_self idx rest)]
          exact hS
        simp only [hAt, hslot]
        have hskel := passList_done_skel env cfg M tokens flags rest
          (setLine s idx l1) s' h
        have hupd : ∀ k, k ≠ idx → (setLine s idx l1).lines k = s.lines k := by
          intro k hk
          show (updFin s.lines idx l1) k = s.lines k
          rw [updFin, if_neg hk]
        have hupdt : ∀ k, k ≠ idx → (setLine t idx l1).lines k = t.lines k := by
          intro k hk
          show (updFin t.lines idx l1) k = t.lines k
          rw [updFin, if_neg hk]
        have hupdi : (setLine s idx l1).lines idx = l1 := by
          show (updFin s.lines idx l1) idx = l1
          rw [updFin, if_pos rfl]
        have hupdti : (setLine t idx l1).lines idx = l1 := by
          show (updFin t.lines idx l1) idx = l1
          rw [updFin, if_pos rfl]
        refine ih (setLine s idx l1) (setLine t idx l1) s' hndr h ha hc hm
          (fun k hk => ?_) (fun k hk hn => ?_) (fun k hk => ?_)
        · have hki : k ≠ idx := fun he => hidxr (he ▸ hk)
          rw [hupdt k hki, hupd k hki]
          exact hreset k (List.mem_cons_of_mem idx hk)
        · have hn' : s.activeStart k = none := hn
          have hki : k ≠ idx := fun he => by rw [he, hA] at hn'; cases hn'
          rw [hupdt k hki, hupd k hki]
          exact hinact k (List.mem_cons_of_mem idx hk) hn'
        · by_cases hki : k = idx
          · rw [hki, hupdti, hskel.2.2.2.2.1 idx hidxr, hupdi]
          · rw [hupdt k hki]
            refine hout k (fun hm2 => ?_)
            cases List.mem_cons.mp hm2 with
            | inl h2 => exact hki h2
            | inr h2 => exact hk h2
      | backtrack l1 => cases h
      | wrap l1 tgt => cases h

theorem updatePass_done_fixed {N : Nat} (env : Env) (cfg : Config) (M : Nat)
    (tokens : List AprilToken) (s s' : LineGenerator N)
    (hInv : StateInv s) (h : updatePass env cfg M tokens s = .done s') :
    updatePass env cfg M tokens s' = .done s' := by
  have hdef : updatePass env cfg M tokens s
      = passList env cfg M tokens (capScan (token_capitalizer_rewind s.tcap) tokens).1
          { s with tcap := (capScan (token_capitalizer_rewind s.tcap) tokens).2 }
          (List.finRange N) := rfl
  rw [hdef] at h
  have hskel := passList_done_skel env cfg M tokens
    (capScan (token_capitalizer_rewind s.tcap) tokens).1 (List.finRange N)
    { s with tcap := (capScan (token_capitalizer_rewind s.tcap) tokens).2 } s' h
  have hInv1 : StateInv ({ s with
      tcap := (capScan (token_capitalizer_rewind s.tcap) tokens).2 } : LineGenerator N) :=
    hInv
  have hres := passList_done_reset env cfg M tokens
    (capScan (token_capitalizer_rewind s.tcap) tokens).1 (List.finRange N)
    { s with tcap := (capScan (token_capitalizer_rewind s.tcap) tokens).2 } s' hInv1 h
  have htcap : s'.tcap = (capScan (token_capitalizer_rewind s.tcap) tokens).2 :=
    hskel.2.2.1
  have hrerun := passList_rerun env cfg M tokens
    (capScan (token_capitalizer_rewind s.tcap) tokens).1 (List.finRange N)
    { s with tcap := (capScan (token_capitalizer_rewind s.tcap) tokens).2 }
    { s' with tcap := (capScan (token_capitalizer_rewind s.tcap) tokens).2 } s'
    (List.nodup_finRange N) h
    hskel.1 hskel.2.1 hskel.2.2.2.1
    (fun k _ => hres.1 k)
    (fun k _ hn => hskel.2.2.2.2.2 k hn)
    (fun k hk => absurd (List.mem_finRange k) hk)
  obtain ⟨t', ht', hlines, hact, hcur, htc, hmw⟩ := hrerun
  have hts : t' = s' := by
    refine lgExt t' s' (funext hlines) ?_ ?_ ?_ ?_
    · rw [hact]
    · rw [hcur]
    · rw [htc]; exact htcap.symm
    · rw [hmw]
  have hstc : token_capitalizer_rewind s'.tcap = token_capitalizer_rewind s.tcap := by
    rw [htcap]
    exact rewind_capScan_rewind s.tcap tokens
  have hdef2 : updatePass env cfg M tokens s'
      = passList env cfg M tokens (capScan (token_capitalizer_rewind s'.tcap) tokens).1
          { s' with tcap := (capScan (token_capitalizer_rewind s'.tcap) tokens).2 }
          (List.finRange N) := rfl
  rw [hdef2, hstc, ht', hts]

/-- Claim C1: the update is idempotent. Under the structural invariant that
every slot's frozen checkpoint lies inside its text buffer (which `init`,
`finalize` and `break` establish and `update` preserves), if
`line_generator_update` returns state `s'`, then running the very same
update (same tokens, same settings, same width limit) on `s'` returns
`s'` itself: every line buffer, every checkpoint, the active markers, the
current-line index and the capitalizer are all byte-identical the second
time. -/
theorem C1_update_idempotent {N : Nat} (env : Env) (cfg : Config) (M : Nat)
    (s s' : LineGenerator N) (tokens : List AprilToken)
    (hInv : StateInv s)
    (h : line_generator_update env cfg M s tokens = some s') :
    line_generator_update env cfg M s' tokens = some s' := by
  have key : ∀ (F : Nat) (t : LineGenerator N), StateInv t →
      updateFuel env cfg M tokens F t = some s' →
      updatePass env cfg M tokens s' = PassResult.done s' := by
    intro F
    induction F with
    | zero => intro t _ h2; cases h2
    | succ F ih =>
      intro t hInvT h2
      rw [updateFuel] at h2
      cases hP : updatePass env cfg M tokens t with
      | done s1 =>
        rw [hP] at h2
        injection h2 with he
        rw [he] at hP
        exact updatePass_done_fixed env cfg M tokens t s' hInvT hP
      | retry s0 =>
        rw [hP] at h2
        have hInv0 : StateInv s0 := by
          have hdefp : updatePass env cfg M tokens t
              = passList env cfg M tokens
                  (capScan (token_capitalizer_rewind t.tcap) tokens).1
                  { t with tcap := (capScan (token_capitalizer_rewind t.tcap) tokens).2 }
                  (List.finRange N) := rfl
          rw [hdefp] at hP
          exact passList_retry_inv env cfg M tokens _ (List.finRange N)
            { t with tcap := (capScan (token_capitalizer_rewind t.tcap) tokens).2 }
            s0 hInvT hP
        exact ih s0 hInv0 h2
  have hfix : updatePass env cfg M tokens s' = PassResult.done s' :=
    key (N + 2 * tokens.length + 2) s hInv h
  show updateFuel env cfg M tokens (N + 2 * tokens.length + 1 + 1) s' = some s'
  rw [updateFuel, hfix]

theorem C1_update_idempotent_witness :
    StateInv lgOne
    ∧ line_generator_update envLen cfgPlain 1000 lgOne [] = some lgOneOut
    ∧ line_generator_update envLen cfgPlain 1000 lgOneOut [] = some lgOneOut := by
  have hInv : StateInv lgOne := by unfold StateInv; decide
  have hmap : (line_generator_update envLen cfgPlain 1000 lgOne []).map
      (fun t => decide (t = lgOneOut)) = some true := by decide
  have h1 : line_generator_update envLen cfgPlain 1000 lgOne [] = some lgOneOut :=
    optionEqSome _ _ hmap
  exact ⟨hInv, h1, C1_update_idempotent envLen cfgPlain 1000 lgOne lgOneOut [] hInv h1⟩
